import Mathlib

/-!
Shallow embedding of the unitypackage-scanner core engine
(PackageParser, PatternLoader, ExtensionDetector, PatternMatcher and the
scan-result aggregation in the main process), together with theorems about
the behaviour of those functions.

JavaScript strings are modelled as lists of characters (`Str`); the handful
of Node/JS library functions the engine calls (path.normalize, path.extname,
String.prototype.trim / split / startsWith / includes / toLowerCase /
toUpperCase, Number.prototype.toString, Set, plain-object records) are
embedded explicitly below, restricted to POSIX path semantics and ASCII
case mapping, which is what the scanner relies on.
-/

/-- Model of a JavaScript string: a list of characters. -/
abbrev Str := List Char

namespace Js

/-- Model of `s.startsWith(pre)`. -/
def startsWith (s pre : Str) : Bool := pre.isPrefixOf s

/-- Model of `s.includes(sub)` (contiguous substring test). -/
def includes : Str → Str → Bool
  | s, sub =>
    if sub.isPrefixOf s then true
    else match s with
      | [] => false
      | _ :: t => includes t sub

/-- Characters treated as whitespace by `String.prototype.trim` (ASCII part). -/
def isWhitespaceChar (c : Char) : Bool :=
  c = ' ' || c = '\t' || c = '\n' || c = '\r' || c = '\x0b' || c = '\x0c'

/-- Model of `s.trim()`. -/
def trim (s : Str) : Str :=
  ((s.dropWhile isWhitespaceChar).reverse.dropWhile isWhitespaceChar).reverse

/-- ASCII lower-casing of one character, as `String.prototype.toLowerCase`. -/
def toLowerChar (c : Char) : Char :=
  if 'A' ≤ c ∧ c ≤ 'Z' then Char.ofNat (c.toNat + 32) else c

/-- ASCII upper-casing of one character, as `String.prototype.toUpperCase`. -/
def toUpperChar (c : Char) : Char :=
  if 'a' ≤ c ∧ c ≤ 'z' then Char.ofNat (c.toNat - 32) else c

/-- Model of `s.toLowerCase()` (ASCII). -/
def toLower (s : Str) : Str := s.map toLowerChar

/-- Model of `s.toUpperCase()` (ASCII). -/
def toUpper (s : Str) : Str := s.map toUpperChar

/-- Model of `a || b` on strings: the empty string is falsy. -/
def orElse (a b : Str) : Str := if a = [] then b else a

/-- Truthiness of an optional string (`undefined` and the empty string are falsy). -/
def truthy : Option Str → Bool
  | none => false
  | some s => s ≠ []

/-- One decimal digit as a character. -/
def digitChar (n : Nat) : Char := Char.ofNat (48 + n)

/-- Core of decimal printing, accumulating low digits on the right; the
fuel argument only makes the recursion structural. -/
def numberToStringAux : Nat → Nat → Str → Str
  | 0, _, acc => acc
  | fuel + 1, n, acc =>
    if n < 10 then digitChar n :: acc
    else numberToStringAux fuel (n / 10) (digitChar (n % 10) :: acc)

/-- Model of `n.toString()` for a non-negative integer. -/
def numberToString (n : Nat) : Str := numberToStringAux (n + 1) n []

/-- Lookup in a JS plain-object record, modelled as an insertion-ordered
association list with (by construction of JSON parsing) unique keys. -/
def recordGet {α : Type} (m : List (Str × α)) (k : Str) : Option α :=
  (m.find? (fun p => p.1 == k)).map Prod.snd

/-- Model of JS object property assignment: overwrite in place, or append. -/
def objInsert {α : Type} (m : List (Str × α)) (k : Str) (v : α) : List (Str × α) :=
  if m.any (fun p => p.1 == k) then
    m.map (fun p => if p.1 == k then (k, v) else p)
  else m ++ [(k, v)]

/-- Model of adding to a JS `Set` (insertion-ordered, deduplicating). -/
def setAdd (s : List Str) (x : Str) : List Str := if x ∈ s then s else s ++ [x]

/-- Model of `new Set(list)`. -/
def setOf (l : List Str) : List Str := l.foldl setAdd []

/-- Model of `set.has(x)`. -/
def setHas (s : List Str) (x : Str) : Bool := x ∈ s

end Js

namespace NodePath

/-- Splitting on '/' with an accumulator, as `s.split('/')`. -/
def splitSlashAux : Str → Str → List Str
  | [], acc => [acc.reverse]
  | c :: rest, acc =>
    if c = '/' then acc.reverse :: splitSlashAux rest []
    else splitSlashAux rest (c :: acc)

/-- Model of `s.split('/')`. -/
def splitSlash (s : Str) : List Str := splitSlashAux s []

/-- Joining path segments with '/', as `segments.join('/')`. -/
def joinSegs : List Str → Str
  | [] => []
  | [s] => s
  | s :: rest => s ++ '/' :: joinSegs rest

/-- The parent-directory segment. -/
def dotdot : Str := ['.', '.']

/-- Segment resolution loop of Node's `normalizeString` (POSIX): drops empty
and `.` segments, resolves `..` against the stack, keeps leading `..`s when
the path is relative.  The accumulator holds the resolved segments in
reverse order. -/
def normalizeSegs (isAbs : Bool) : List Str → List Str → List Str
  | acc, [] => acc.reverse
  | acc, seg :: rest =>
    if seg = [] ∨ seg = ['.'] then normalizeSegs isAbs acc rest
    else if seg = dotdot then
      match acc with
      | [] => normalizeSegs isAbs (if isAbs then [] else [seg]) rest
      | top :: accRest =>
        if top = dotdot then normalizeSegs isAbs (seg :: acc) rest
        else normalizeSegs isAbs accRest rest
    else normalizeSegs isAbs (seg :: acc) rest

/-- Model of `path.normalize` with POSIX separators (the semantics the
scanner relies on for tar entry names). -/
def normalize (p : Str) : Str :=
  if p = [] then ['.']
  else
    let isAbs := p.head? = some '/'
    let trailing := p.getLast? = some '/'
    let stack := normalizeSegs isAbs [] (splitSlash p)
    let body := joinSegs stack
    let body1 := if body = [] ∧ ¬ isAbs then ['.'] else body
    let body2 := if body1 ≠ [] ∧ trailing then body1 ++ ['/'] else body1
    if isAbs then '/' :: body2 else body2

/-- Index of the last '.' in a segment, if any. -/
def lastDotIdx (b : Str) : Option Nat :=
  (List.range b.length).foldl
    (fun acc i => if b.get? i = some '.' then some i else acc) none

/-- Model of `path.extname` (POSIX): extension of the last non-empty path
segment, empty for dotfiles and for the `.`/`..` segments. -/
def extname (p : Str) : Str :=
  match ((splitSlash p).filter (fun seg => seg ≠ [])).getLast? with
  | none => []
  | some b =>
    if b = ['.'] ∨ b = dotdot then []
    else match lastDotIdx b with
      | none => []
      | some 0 => []
      | some i => b.drop i

end NodePath

/-! Shared type definitions (src/shared/types). -/

/-- Finding severity (`ScanFinding['severity']`). -/
inductive Severity
  | critical
  | warning
  | info
deriving DecidableEq, Repr

/-- Classification of an extracted file (`ExtractedFile['type']`). -/
inductive FileType
  | script
  | dll
  | asset
  | texture
  | model
  | audio
  | meta
  | other
deriving DecidableEq, Repr

/-- Extension-rule risk level. -/
inductive RiskLevel
  | low
  | medium
  | high
deriving DecidableEq, Repr

/-- One scan finding (shared/types ScanFinding).  The category union type is
modelled as a string, matching the unchecked casts in the source. -/
structure ScanFinding where
  id : Str
  severity : Severity
  category : Str
  pattern : Str
  filePath : Str
  lineNumber : Nat
  context : Str
  description : Str
deriving DecidableEq, Repr

/-- One extracted file (shared/types ExtractedFile). -/
structure ExtractedFile where
  path : Str
  type : FileType
  size : Nat
  guid : Option Str := none
  content : Option Str := none
deriving DecidableEq, Repr

namespace PackageParser

/-- Filter function of PackageParser.extractTarGz: an entry is kept iff its
normalized path neither starts with `../` nor contains `/../`. -/
def tarEntryFilter (entryPath : Str) : Bool :=
  let normalizedPath := NodePath.normalize entryPath
  !(Js.startsWith normalizedPath ['.', '.', '/']) &&
    !(Js.includes normalizedPath ['/', '.', '.', '/'])

/-- Model of node-tar's own path check under the default
`preservePaths: false` (the source does not set `preservePaths`): an entry
whose path, split on '/', contains a `..` component is refused with a
TAR_ENTRY_ERROR warning and skipped — non-fatal under `strict: false`.
The library's absolute-path prefix stripping, which renames entries rather
than excluding them, is not modelled. -/
def tarCheckPath (entryPath : Str) : Bool :=
  !(decide (NodePath.dotdot ∈ NodePath.splitSlash entryPath))

/-- Model of tar.extract as called by extractTarGz: an entry is unpacked
iff the scanner's filter accepts it and node-tar's default path check
passes. -/
def extractTarGz (entries : List Str) : List Str :=
  entries.filter (fun entryPath => tarCheckPath entryPath && tarEntryFilter entryPath)

/-- Whether a path contains a parent-directory traversal segment. -/
def hasTraversalSeg (p : Str) : Bool :=
  (NodePath.splitSlash p).any (fun seg => seg = NodePath.dotdot)

/-- Outcome of reading one file from disk (`fs.readFile`): success with the
decoded text, or a read error. -/
inductive ReadResult
  | ok (content : Str)
  | failed
deriving DecidableEq, Repr

/-- One top-level entry of the extraction directory as seen by
`analyzeExtractedFiles`: its name, whether it is a directory, and the state
of its optional `pathname` and `asset` children (`none` = absent;
for present files the model records what reading them yields, and for the
asset additionally its size from `fs.stat`). -/
structure DirEnt where
  name : Str
  isDirectory : Bool
  pathname : Option ReadResult
  asset : Option (Nat × ReadResult)
deriving DecidableEq, Repr

/-- The GUID-directory name test, embedding the regular expression
test performed on each directory name: exactly 32 characters, each a
hexadecimal digit. -/
def isGuidName (s : Str) : Bool :=
  s.length = 32 && s.all (fun c =>
    ('0' ≤ c && c ≤ '9') || ('a' ≤ c && c ≤ 'f') || ('A' ≤ c && c ≤ 'F'))

/-- The synthetic path used when no usable `pathname` exists. -/
def guidPlaceholder (guidDir : Str) : Str :=
  ('[' :: 'G' :: 'U' :: 'I' :: 'D' :: ':' :: guidDir) ++ [']']

/-- The extension-to-type decision chain of analyzeExtractedFiles together
with the conditional content read for C# scripts, returning the type and
the eagerly-read content. -/
def classifyAndRead (ext : Str) (assetSize : Nat) (assetRead : ReadResult) :
    FileType × Option Str :=
  if ext = ['.', 'c', 's'] then
    (FileType.script,
      if assetSize < 1024 * 1024 then
        match assetRead with
        | ReadResult.ok c => some c
        | ReadResult.failed => none
      else none)
  else if ext = ['.', 'd', 'l', 'l'] then (FileType.dll, none)
  else if ([".prefab", ".asset", ".mat", ".unity", ".controller", ".anim"].map
      String.toList).contains ext then (FileType.asset, none)
  else if ([".png", ".jpg", ".jpeg", ".tif", ".tiff", ".bmp"].map
      String.toList).contains ext then (FileType.texture, none)
  else if ([".fbx", ".obj", ".dae", ".3ds", ".blend"].map
      String.toList).contains ext then (FileType.model, none)
  else if ([".wav", ".mp3", ".ogg", ".aiff"].map
      String.toList).contains ext then (FileType.audio, none)
  else if ([".json", ".xml", ".txt", ".yaml", ".yml"].map
      String.toList).contains ext then (FileType.other, none)
  else (FileType.other, none)

/-- Processing of one top-level entry of the extraction directory by
PackageParser.analyzeExtractedFiles: skips non-directories and names that
are not 32 hex characters, reads `pathname` (trimmed; read errors leave the
original path undefined), and emits an ExtractedFile only when an `asset`
entry exists.  JS falsiness of the empty string is modelled explicitly in
the `ext` computation and the `originalPath || placeholder` fallback. -/
def analyzeEntry (e : DirEnt) : Option ExtractedFile :=
  if ¬ e.isDirectory then none
  else if ¬ isGuidName e.name then none
  else
    let originalPath : Option Str :=
      match e.pathname with
      | some (ReadResult.ok c) => some (Js.trim c)
      | some ReadResult.failed => none
      | none => none
    match e.asset with
    | none => none
    | some (assetSize, assetRead) =>
      let ext : Str :=
        match originalPath with
        | some p => if p = [] then [] else Js.toLower (NodePath.extname p)
        | none => []
      let tc := classifyAndRead ext assetSize assetRead
      some { path :=
               match originalPath with
               | some p => if p = [] then guidPlaceholder e.name else p
               | none => guidPlaceholder e.name
             , type := tc.1
             , size := assetSize
             , guid := some e.name
             , content := tc.2 }

/-- Model of PackageParser.analyzeExtractedFiles: the per-entry processing
folded over the directory listing in order. -/
def analyzeExtractedFiles (entries : List DirEnt) : List ExtractedFile :=
  entries.filterMap analyzeEntry

end PackageParser

namespace Js

/-- Splitting on an arbitrary separator with an accumulator. -/
def splitCharAux (sep : Char) : Str → Str → List Str
  | [], acc => [acc.reverse]
  | c :: rest, acc =>
    if c = sep then acc.reverse :: splitCharAux sep rest []
    else splitCharAux sep rest (c :: acc)

/-- Model of `s.split(sep)` for a one-character separator. -/
def splitOnChar (sep : Char) (s : Str) : List Str := splitCharAux sep s []

/-- Model of `parts.join(sep)`. -/
def arrayJoin (sep : Str) : List Str → Str
  | [] => []
  | [s] => s
  | s :: rest => s ++ sep ++ arrayJoin sep rest

end Js

namespace PatternLoader

/-- One pattern entry of a content-rule document. -/
structure PatternDefinition where
  name : Str
  description : Str
  regex : Str
  flags : Str
  severity : Option Severity := none

/-- One category of a content-rule document. -/
structure CategoryDefinition where
  severity : Severity
  description : Str
  patterns : Option (List PatternDefinition) := none
  fileExtension : Option Str := none

/-- A named preset of a content-rule document. -/
structure PresetDefinition where
  name : Str
  description : Str
  enabledCategories : List Str
  excludePatterns : Option (List Str) := none

/-- A parsed content-rule document. -/
structure PatternFile where
  version : Str
  name : Str
  description : Str
  categories : List (Str × CategoryDefinition)
  presets : Option (List (Str × PresetDefinition)) := none

/-- A compiled content rule.  The compiled regular expression is modelled
as the function counting how many matchAll matches it produces on a line;
the JS regex engine itself is external to this code base. -/
structure CompiledPattern where
  name : Str
  category : Str
  severity : Severity
  regex : Str → Nat
  description : Str

/-- Model of PatternLoader.parseRegexFlags: keep only valid flag letters and
force the global flag. -/
def parseRegexFlags (flags : Str) : Str :=
  let validFlags : Str := ['g', 'i', 'm', 's', 'u', 'y']
  let parsedFlags := flags.filter (fun f => validFlags.contains f)
  if parsedFlags.contains 'g' then parsedFlags else parsedFlags ++ ['g']

/-- Compilation of a single category of a pattern file, parameterized by
the JS regex engine: `rc src flags` is the compiled matcher produced by the
RegExp constructor and `compileOk src flags` tells whether that constructor
succeeds (its failure on a per-pattern regex is caught and the rule is
dropped, per the lenient-compilation policy of the source). -/
def compileCategory (rc : Str → Str → (Str → Nat)) (compileOk : Str → Str → Bool)
    (categoryName : Str) (category : CategoryDefinition) : List CompiledPattern :=
  if Js.truthy category.fileExtension then
    [{ name := Js.toUpper categoryName ++ (" File").toList
     , category := categoryName
     , severity := category.severity
     , regex := rc ('\\' :: (category.fileExtension.getD [] ++ ['$'])) ['g', 'i']
     , description := category.description }]
  else
    match category.patterns with
    | some pats =>
      pats.filterMap (fun pattern =>
        let regexFlags := parseRegexFlags pattern.flags
        if compileOk pattern.regex regexFlags then
          some { name := pattern.name
               , category := categoryName
               , severity := pattern.severity.getD category.severity
               , regex := rc pattern.regex regexFlags
               , description := pattern.description }
        else none)
    | none => []

/-- Model of PatternLoader.compilePatterns: compile every category of the
document in declaration order. -/
def compilePatterns (rc : Str → Str → (Str → Nat)) (compileOk : Str → Str → Bool)
    (patternFile : PatternFile) : List CompiledPattern :=
  patternFile.categories.flatMap (fun entry => compileCategory rc compileOk entry.1 entry.2)

/-- One step of the category-restriction loop of applyPreset: copy the
named category into the filtered table when the document has it. -/
def presetStep (cats : List (Str × CategoryDefinition))
    (acc : List (Str × CategoryDefinition)) (categoryName : Str) :
    List (Str × CategoryDefinition) :=
  match Js.recordGet cats categoryName with
  | some c => Js.objInsert acc categoryName c
  | none => acc

/-- Model of PatternLoader.applyPreset on a loaded pattern file: restrict
the document to the preset's enabled categories (unknown names skipped,
JS-object insertion semantics), compile, then drop rules named in the
preset's exclude list. -/
def applyPreset (rc : Str → Str → (Str → Nat)) (compileOk : Str → Str → Bool)
    (currentPatternFile : PatternFile) (preset : PresetDefinition) : List CompiledPattern :=
  let filteredCategories := preset.enabledCategories.foldl
    (presetStep currentPatternFile.categories) []
  let filteredPatternFile := { currentPatternFile with categories := filteredCategories }
  let patterns := compilePatterns rc compileOk filteredPatternFile
  match preset.excludePatterns with
  | some excludeList => patterns.filter (fun pattern => !(excludeList.contains pattern.name))
  | none => patterns

/-- Mutable state of a PatternLoader object. -/
structure LoaderState where
  loadedPatterns : List CompiledPattern
  currentPatternFile : Option PatternFile

/-- The applyPreset method as a state transformer: without a loaded file it
returns the empty list and leaves the state unchanged; otherwise it stores
and returns the preset-filtered compilation of the loaded file. -/
def applyPresetState (rc : Str → Str → (Str → Nat)) (compileOk : Str → Str → Bool)
    (st : LoaderState) (preset : PresetDefinition) : List CompiledPattern × LoaderState :=
  match st.currentPatternFile with
  | none => ([], st)
  | some f =>
    let patterns := applyPreset rc compileOk f preset
    (patterns, { st with loadedPatterns := patterns })

end PatternLoader

namespace ExtensionDetector

/-- One extension rule of an extension definition document (metadata
fields inlined). -/
structure ExtensionRule where
  severity : Severity
  category : Str
  description : Str
  riskLevel : RiskLevel
  checkContent : Bool
  fileType : Str
  platform : List Str
  commonUses : List Str
deriving DecidableEq, Repr

/-- One category of an extension definition document. -/
structure ExtensionCategory where
  name : Str
  description : Str
  defaultSeverity : Severity
deriving DecidableEq, Repr

/-- A named preset of an extension definition document. -/
structure ExtensionPreset where
  name : Str
  description : Str
  enabledExtensions : List Str
deriving DecidableEq, Repr

/-- A parsed extension definition document. -/
structure ExtensionDefinitionFile where
  version : Str
  name : Str
  description : Str
  extensions : List (Str × ExtensionRule)
  categories : List (Str × ExtensionCategory)
  presets : List (Str × ExtensionPreset)
deriving DecidableEq, Repr

/-- Mutable state of an ExtensionDetector object. -/
structure DetectorState where
  extensionRules : List (Str × ExtensionRule)
  categories : List (Str × ExtensionCategory)
  currentDefinitionFile : Option ExtensionDefinitionFile
  enabledExtensions : List Str
deriving DecidableEq, Repr

/-- Errors thrown by loading / preset application. -/
inductive LoadError
  | presetNotFound (presetName : Str)
deriving DecidableEq, Repr

/-- Model of ExtensionDetector.applyPreset: replace the enabled-extension
set with the preset's list; an unknown preset name throws. -/
def applyPreset (st : DetectorState) (presetName : Str) : Except LoadError DetectorState :=
  match st.currentDefinitionFile with
  | none => Except.error (LoadError.presetNotFound presetName)
  | some df =>
    match Js.recordGet df.presets presetName with
    | none => Except.error (LoadError.presetNotFound presetName)
    | some preset =>
      Except.ok { st with enabledExtensions := Js.setOf preset.enabledExtensions }

/-- Model of ExtensionDetector.loadExtensionDefinitions on an already
parsed document: store the document, rules and categories; with a preset
name, fail if it is unknown, otherwise apply it; without one, enable every
extension of the document. -/
def loadExtensionDefinitions (st : DetectorState) (df : ExtensionDefinitionFile)
    (presetName : Option Str) : Except LoadError DetectorState :=
  let st1 := { st with
    currentDefinitionFile := some df,
    extensionRules := df.extensions,
    categories := df.categories }
  match presetName with
  | some pn =>
    match Js.recordGet df.presets pn with
    | none => Except.error (LoadError.presetNotFound pn)
    | some _ => applyPreset st1 pn
  | none =>
    Except.ok { st1 with enabledExtensions := Js.setOf (df.extensions.map Prod.fst) }

/-- Model of ExtensionDetector.getFileExtension: the lower-cased extension
without its dot, or nothing when the file has no extension. -/
def getFileExtension (filePath : Str) : Option Str :=
  let ext := (Js.toLower (NodePath.extname filePath)).drop 1
  if ext = [] then none else some ext

/-- The fixed list of dangerous keywords searched by analyzeFileContent. -/
def dangerousKeywords : List Str :=
  ([ "delete", "remove", "format", "registry", "regedit"
   , "powershell", "cmd", "eval", "exec", "system"
   , "download", "wget", "curl", "invoke-webrequest"
   , "del" ]).map String.toList

/-- Model of ExtensionDetector.analyzeFileContent: a human-readable summary
of a content-checked file (the source joins with a literal backslash-n
two-character sequence, reproduced here). -/
def analyzeFileContent (content : Str) (extension : Str) : Str :=
  let lines := Js.splitOnChar '\n' content
  let firstFewLines := Js.arrayJoin ['\\', 'n'] (lines.take 5)
  let summary := Js.toUpper extension ++ (" スクリプト (").toList
    ++ Js.numberToString lines.length ++ (" 行)").toList
  let foundKeywords := dangerousKeywords.filter
    (fun keyword => Js.includes (Js.toLower content) keyword)
  let summary2 :=
    if foundKeywords ≠ [] then
      summary ++ (" [疑わしいキーワード: ").toList
        ++ Js.arrayJoin (", ").toList foundKeywords ++ ("]").toList
    else summary
  summary2 ++ ("\\n\\n先頭部分:\\n").toList ++ firstFewLines

/-- An extension finding: a ScanFinding with extension-specific extras. -/
structure ExtensionFinding extends ScanFinding where
  fileType : Str
  riskLevel : RiskLevel
  platform : List Str
  extensionCategory : Str
deriving DecidableEq, Repr

/-- Processing of one file by ExtensionDetector.scanFiles: skipped without
a finding when the lower-cased extension is absent, not enabled, or has no
rule; otherwise one finding is produced, with the keyword summary as
context when the rule requires a content check and content is present. -/
def scanOneFile (st : DetectorState) (findingIdCounter : Nat) (file : ExtractedFile) :
    Option ExtensionFinding :=
  match getFileExtension file.path with
  | none => none
  | some extension =>
    if !(Js.setHas st.enabledExtensions extension) then none
    else
      match Js.recordGet st.extensionRules extension with
      | none => none
      | some rule =>
        let additionalContext :=
          if rule.checkContent && Js.truthy file.content then
            analyzeFileContent (file.content.getD []) extension
          else []
        some { id := Js.numberToString findingIdCounter
             , severity := rule.severity
             , category := rule.category
             , pattern := Js.toUpper extension ++ (" File").toList
             , filePath := file.path
             , lineNumber := 0
             , context := Js.orElse additionalContext
                 (rule.fileType ++ (": ").toList ++ file.path)
             , description := rule.description
             , fileType := rule.fileType
             , riskLevel := rule.riskLevel
             , platform := rule.platform
             , extensionCategory := rule.category }

/-- The file loop of ExtensionDetector.scanFiles with its finding counter
(incremented only when a finding is pushed). -/
def scanFilesGo (st : DetectorState) : Nat → List ExtractedFile → List ExtensionFinding
  | _, [] => []
  | counter, file :: rest =>
    match scanOneFile st counter file with
    | none => scanFilesGo st counter rest
    | some finding => finding :: scanFilesGo st (counter + 1) rest

/-- Model of ExtensionDetector.scanFiles. -/
def scanFiles (st : DetectorState) (extractedFiles : List ExtractedFile) :
    List ExtensionFinding :=
  scanFilesGo st 1 extractedFiles

end ExtensionDetector

namespace PatternMatcher

/-- Model of PatternMatcher.isCommentLine. -/
def isCommentLine (line : Str) : Bool :=
  let trimmed := Js.trim line
  Js.startsWith trimmed ['/', '/'] || Js.startsWith trimmed ['/', '*']
    || Js.startsWith trimmed ['*']

/-- One content finding as pushed by the matchAll loop. -/
def mkContentFinding (findingIdCounter : Nat) (pattern : PatternLoader.CompiledPattern)
    (file : ExtractedFile) (lineNumber : Nat) (line : Str) : ScanFinding :=
  { id := Js.numberToString findingIdCounter
  , severity := pattern.severity
  , category := pattern.category
  , pattern := pattern.name
  , filePath := file.path
  , lineNumber := lineNumber
  , context := Js.trim line
  , description := pattern.description }

/-- The per-line pattern loop: for every compiled pattern, one finding per
matchAll match, ids taken from the running counter. -/
def scanLinePatterns (file : ExtractedFile) (lineNumber : Nat) (line : Str) :
    List PatternLoader.CompiledPattern → Nat → List ScanFinding × Nat
  | [], counter => ([], counter)
  | pattern :: rest, counter =>
    let n := pattern.regex line
    let these := (List.range n).map
      (fun k => mkContentFinding (counter + k) pattern file lineNumber line)
    let result := scanLinePatterns file lineNumber line rest (counter + n)
    (these ++ result.1, result.2)

/-- The per-file line loop: comment lines are skipped entirely, other lines
run the pattern loop; line numbers are 1-based. -/
def scanLines (patterns : List PatternLoader.CompiledPattern) (file : ExtractedFile) :
    List Str → Nat → Nat → List ScanFinding × Nat
  | [], _, counter => ([], counter)
  | line :: rest, lineIndex, counter =>
    if isCommentLine line then scanLines patterns file rest (lineIndex + 1) counter
    else
      let first := scanLinePatterns file (lineIndex + 1) line patterns counter
      let more := scanLines patterns file rest (lineIndex + 1) first.2
      (first.1 ++ more.1, more.2)

/-- The script-file loop of PatternMatcher.scanFiles. -/
def scanScriptFiles (patterns : List PatternLoader.CompiledPattern) :
    List ExtractedFile → Nat → List ScanFinding × Nat
  | [], counter => ([], counter)
  | file :: rest, counter =>
    if !(Js.truthy file.content) then scanScriptFiles patterns rest counter
    else
      let lines := Js.splitOnChar '\n' (file.content.getD [])
      let first := scanLines patterns file lines 0 counter
      let more := scanScriptFiles patterns rest first.2
      (first.1 ++ more.1, more.2)

/-- The merge loop that re-ids extension findings into standard findings. -/
def mergeExtensionFindings : Nat → List ExtensionDetector.ExtensionFinding →
    List ScanFinding × Nat
  | counter, [] => ([], counter)
  | counter, extensionFinding :: rest =>
    let standardFinding : ScanFinding :=
      { id := Js.numberToString counter
      , severity := extensionFinding.severity
      , category := extensionFinding.category
      , pattern := extensionFinding.pattern
      , filePath := extensionFinding.filePath
      , lineNumber := extensionFinding.lineNumber
      , context := extensionFinding.context
      , description := extensionFinding.description }
    let more := mergeExtensionFindings (counter + 1) rest
    (standardFinding :: more.1, more.2)

/-- Model of PatternMatcher.scanFiles: extension findings first (re-id'd
from 1), then line-oriented content findings over the script files with
non-empty content, the id counter running on. -/
def scanFiles (patterns : List PatternLoader.CompiledPattern)
    (extensionDetector : ExtensionDetector.DetectorState)
    (extractedFiles : List ExtractedFile) : List ScanFinding :=
  let extensionFindings := ExtensionDetector.scanFiles extensionDetector extractedFiles
  let merged := mergeExtensionFindings 1 extensionFindings
  let scriptFiles := extractedFiles.filter (fun file =>
    (file.type == FileType.script) && Js.truthy file.content)
  let contentResult := scanScriptFiles patterns scriptFiles merged.2
  merged.1 ++ contentResult.1

end PatternMatcher

namespace Application

/-- The severity-count summary computed in the scan-package IPC handler. -/
structure ScanSummary where
  critical : Nat
  warning : Nat
  info : Nat
  total : Nat
deriving DecidableEq, Repr

/-- Model of the summary computation of the scan-package handler. -/
def computeSummary (findings : List ScanFinding) : ScanSummary :=
  { critical := (findings.filter (fun f => f.severity == Severity.critical)).length
  , warning := (findings.filter (fun f => f.severity == Severity.warning)).length
  , info := (findings.filter (fun f => f.severity == Severity.info)).length
  , total := findings.length }

/-- The findings/summary part of the scan result assembled by the handler. -/
structure ScanResultData where
  findings : List ScanFinding
  summary : ScanSummary
deriving DecidableEq, Repr

/-- Model of the result assembly of the scan-package handler. -/
def buildScanResult (findings : List ScanFinding) : ScanResultData :=
  { findings := findings, summary := computeSummary findings }

end Application

/-! Helper lemmas. -/

namespace Js

theorem mem_foldl_setAdd (l : List Str) (acc : List Str) (x : Str) :
    x ∈ l.foldl setAdd acc ↔ x ∈ acc ∨ x ∈ l := by
  induction l generalizing acc with
  | nil => simp
  | cons y t ih =>
    simp only [List.foldl_cons, ih, setAdd]
    by_cases hy : y ∈ acc
    · simp [hy]
      constructor
      · rintro h; exact h.imp_right Or.inr
      · rintro (h | rfl | h)
        · exact Or.inl h
        · exact Or.inl hy
        · exact Or.inr h
    · simp [hy, List.mem_append]
      constructor
      · rintro ((h | rfl) | h)
        · exact Or.inl h
        · exact Or.inr (Or.inl rfl)
        · exact Or.inr (Or.inr h)
      · rintro (h | rfl | h)
        · exact Or.inl (Or.inl h)
        · exact Or.inl (Or.inr rfl)
        · exact Or.inr h

theorem mem_setOf (l : List Str) (x : Str) : x ∈ setOf l ↔ x ∈ l := by
  simp [setOf, mem_foldl_setAdd]

end Js

/-! Claim C5. -/

/-- Helper: the three severity filters partition any finding list. -/
theorem severity_filter_partition (l : List ScanFinding) :
    (l.filter (fun f => f.severity == Severity.critical)).length
      + (l.filter (fun f => f.severity == Severity.warning)).length
      + (l.filter (fun f => f.severity == Severity.info)).length = l.length := by
  induction l with
  | nil => simp
  | cons f t ih =>
    cases h : f.severity <;> simp [List.filter_cons, h] <;> omega

/-- Claim C5: the computed summary is a pure counting reduction by
severity: each severity field counts the findings of that severity, the
total equals the length of the finding list (hence the three counts sum to
the total), and the finding list itself is passed through unchanged. -/
theorem scan_summary_is_counting_reduction (findings : List ScanFinding) :
    (Application.computeSummary findings).critical
        = (findings.filter (fun f => f.severity == Severity.critical)).length ∧
    (Application.computeSummary findings).warning
        = (findings.filter (fun f => f.severity == Severity.warning)).length ∧
    (Application.computeSummary findings).info
        = (findings.filter (fun f => f.severity == Severity.info)).length ∧
    (Application.computeSummary findings).total = findings.length ∧
    (Application.computeSummary findings).critical
        + (Application.computeSummary findings).warning
        + (Application.computeSummary findings).info
        = (Application.computeSummary findings).total ∧
    (Application.buildScanResult findings).findings = findings := by
  refine ⟨rfl, rfl, rfl, rfl, ?_, rfl⟩
  simpa [Application.computeSummary] using severity_filter_partition findings

/-! Claim C9. -/

/-- Claim C9: a directory entry without an `asset` child contributes no
ExtractedFile at all (even when `pathname` is present), and a listing
consisting only of such entries resolves to the empty file list. -/
theorem no_asset_entry_no_extracted_file :
    (∀ e : PackageParser.DirEnt, e.asset = none →
        PackageParser.analyzeEntry e = none) ∧
    (∀ entries : List PackageParser.DirEnt,
        (∀ e ∈ entries, e.asset = none) →
        PackageParser.analyzeExtractedFiles entries = []) := by
  have h1 : ∀ e : PackageParser.DirEnt, e.asset = none →
      PackageParser.analyzeEntry e = none := by
    intro e h
    unfold PackageParser.analyzeEntry
    split
    · rfl
    · split
      · rfl
      · simp [h]
  refine ⟨h1, ?_⟩
  intro entries hall
  induction entries with
  | nil => rfl
  | cons e t ih =>
    have he : PackageParser.analyzeEntry e = none :=
      h1 e (hall e (List.mem_cons_self e t))
    have ht := ih (fun x hx => hall x (List.mem_cons_of_mem e hx))
    simp [PackageParser.analyzeExtractedFiles, List.filterMap_cons, he] at ht ⊢
    exact ht

/-- Witness data: a GUID directory with a pathname but no asset. -/
def w9entry : PackageParser.DirEnt :=
  { name := List.replicate 32 'a'
  , isDirectory := true
  , pathname := some (PackageParser.ReadResult.ok ("Assets/A.cs").toList)
  , asset := none }

/-- Witness for C9 at a concrete asset-less GUID directory. -/
theorem no_asset_entry_no_extracted_file_witness :
    PackageParser.analyzeEntry w9entry = none ∧
    PackageParser.analyzeExtractedFiles [w9entry] = [] :=
  ⟨no_asset_entry_no_extracted_file.1 w9entry rfl,
   no_asset_entry_no_extracted_file.2 [w9entry] (by decide)⟩

/-! Claim C3. -/

/-- Helper: content produced by the type/content decision chain is exactly
the successful read of a sub-ceiling C# script. -/
theorem classifyAndRead_spec (ext : Str) (sz : Nat) (rr : PackageParser.ReadResult) :
    ((PackageParser.classifyAndRead ext sz rr).2.isSome ↔
      ((PackageParser.classifyAndRead ext sz rr).1 = FileType.script ∧ sz < 1024 * 1024 ∧
        ∃ c, rr = PackageParser.ReadResult.ok c)) ∧
    (∀ c, (PackageParser.classifyAndRead ext sz rr).2 = some c →
        rr = PackageParser.ReadResult.ok c) := by
  unfold PackageParser.classifyAndRead
  split_ifs with h1 h2 h3 h4 h5 h6 h7 <;>
    cases rr <;> by_cases hsz : sz < 1024 * 1024 <;> simp_all

/-- Claim C3: for every resolved file, content is populated iff the file is
classified as a script, its payload is strictly below 1 MiB, and the read
succeeds; a read failure still produces the file (with no content) rather
than failing the resolve. -/
theorem script_content_read_iff (e : PackageParser.DirEnt) (sz : Nat)
    (rr : PackageParser.ReadResult) (hd : e.isDirectory = true)
    (hg : PackageParser.isGuidName e.name = true) (ha : e.asset = some (sz, rr)) :
    ∃ f, PackageParser.analyzeEntry e = some f ∧ f.size = sz ∧
      (f.content.isSome ↔ (f.type = FileType.script ∧ sz < 1024 * 1024 ∧
        ∃ c, rr = PackageParser.ReadResult.ok c)) ∧
      (∀ c, f.content = some c → rr = PackageParser.ReadResult.ok c) := by
  simp only [PackageParser.analyzeEntry, hd, hg, ha, Bool.not_true, Bool.false_eq_true,
    if_false, ite_false, not_false_eq_true, not_true_eq_false]
  refine ⟨_, rfl, rfl, ?_, ?_⟩
  · exact (classifyAndRead_spec _ sz rr).1
  · exact (classifyAndRead_spec _ sz rr).2

/-- Witness data: a GUID directory holding a small C# script. -/
def w3entry : PackageParser.DirEnt :=
  { name := List.replicate 32 'b'
  , isDirectory := true
  , pathname := some (PackageParser.ReadResult.ok ("Assets/S.cs").toList)
  , asset := some (100, PackageParser.ReadResult.ok ("using UnityEngine;").toList) }

/-- Witness for C3 at a concrete sub-ceiling script directory. -/
theorem script_content_read_iff_witness :
    ∃ f, PackageParser.analyzeEntry w3entry = some f ∧ f.size = 100 ∧
      (f.content.isSome ↔ (f.type = FileType.script ∧ 100 < 1024 * 1024 ∧
        ∃ c, PackageParser.ReadResult.ok ("using UnityEngine;").toList
          = PackageParser.ReadResult.ok c)) ∧
      (∀ c, f.content = some c →
        PackageParser.ReadResult.ok ("using UnityEngine;").toList
          = PackageParser.ReadResult.ok c) :=
  script_content_read_iff w3entry 100 (PackageParser.ReadResult.ok ("using UnityEngine;").toList)
    (by decide) (by decide) rfl

/-! Claim C2. -/

/-- Counterexample data: a GUID directory whose `pathname` file holds only
whitespace, so its trimmed content is the empty string. -/
def c2entry : PackageParser.DirEnt :=
  { name := List.replicate 32 'a'
  , isDirectory := true
  , pathname := some (PackageParser.ReadResult.ok [' ', ' '])
  , asset := some (5, PackageParser.ReadResult.failed) }

/-- Counterexample to C2 as stated: this directory has both a `pathname`
and an `asset` entry, yet the resolved path is the GUID placeholder, not
the trimmed `pathname` content (the empty string is falsy in JS). -/
theorem pathname_resolution_counterexample :
    (PackageParser.analyzeExtractedFiles [c2entry]).map (fun f => f.path)
        = [PackageParser.guidPlaceholder (List.replicate 32 'a')] ∧
    (PackageParser.analyzeExtractedFiles [c2entry]).map (fun f => f.path)
        ≠ [Js.trim [' ', ' ']] := by
  constructor
  · decide
  · decide

/-- Claim C2 (amended): with both `pathname` and `asset` present, the
resolved path is the trimmed `pathname` content when that is non-empty;
when `pathname` is absent, unreadable, or trims to the empty string, the
path is the GUID placeholder; non-32-hex directory names are ignored. -/
theorem pathname_resolution (e : PackageParser.DirEnt) (sz : Nat)
    (rr : PackageParser.ReadResult) :
    (e.isDirectory = true → PackageParser.isGuidName e.name = true →
      e.asset = some (sz, rr) →
      (∀ c, e.pathname = some (PackageParser.ReadResult.ok c) → Js.trim c ≠ [] →
        ∃ f, PackageParser.analyzeEntry e = some f ∧ f.path = Js.trim c) ∧
      ((e.pathname = none ∨ e.pathname = some PackageParser.ReadResult.failed ∨
          (∃ c, e.pathname = some (PackageParser.ReadResult.ok c) ∧ Js.trim c = [])) →
        ∃ f, PackageParser.analyzeEntry e = some f ∧
          f.path = PackageParser.guidPlaceholder e.name)) ∧
    (PackageParser.isGuidName e.name = false →
      PackageParser.analyzeEntry e = none) := by
  constructor
  · intro hd hg ha
    constructor
    · intro c hp htrim
      simp only [PackageParser.analyzeEntry, hd, hg, ha, hp, Bool.not_true,
        not_false_eq_true, not_true_eq_false, if_false]
      refine ⟨_, rfl, ?_⟩
      simp [htrim]
    · rintro (hp | hp | ⟨c, hp, htrim⟩) <;>
        · simp only [PackageParser.analyzeEntry, hd, hg, ha, hp, Bool.not_true,
            not_false_eq_true, not_true_eq_false, if_false]
          refine ⟨_, rfl, ?_⟩
          simp [*]
  · intro hg
    unfold PackageParser.analyzeEntry
    split
    · rfl
    · simp [hg]

/-- Witness data: a GUID directory with a whitespace-padded pathname. -/
def w2entry : PackageParser.DirEnt :=
  { name := List.replicate 32 'c'
  , isDirectory := true
  , pathname := some (PackageParser.ReadResult.ok (" Assets/X.cs ").toList)
  , asset := some (7, PackageParser.ReadResult.failed) }

/-- Witness for C2 (amended) at a concrete directory whose pathname trims
to a non-empty string. -/
theorem pathname_resolution_witness :
    ∃ f, PackageParser.analyzeEntry w2entry = some f ∧
      f.path = Js.trim (" Assets/X.cs ").toList :=
  ((pathname_resolution w2entry 7 PackageParser.ReadResult.failed).1
      rfl (by decide) rfl).1 (" Assets/X.cs ").toList rfl (by decide)

/-! Claim C7. -/

/-- Claim C7: loading extension definitions with an unknown preset name
fails with a preset-not-found error; with a known preset, loading succeeds
and the enabled-extension set is exactly the preset's list (a direct
replacement, independent of the previously enabled extensions). -/
theorem extension_preset_application (st : ExtensionDetector.DetectorState)
    (df : ExtensionDetector.ExtensionDefinitionFile) (pn : Str) :
    (Js.recordGet df.presets pn = none →
      ExtensionDetector.loadExtensionDefinitions st df (some pn)
        = Except.error (ExtensionDetector.LoadError.presetNotFound pn)) ∧
    (∀ preset, Js.recordGet df.presets pn = some preset →
      (∃ st', ExtensionDetector.loadExtensionDefinitions st df (some pn) = Except.ok st' ∧
        st'.enabledExtensions = Js.setOf preset.enabledExtensions ∧
        (∀ x, x ∈ st'.enabledExtensions ↔ x ∈ preset.enabledExtensions) ∧
        st'.extensionRules = df.extensions) ∧
      (∀ st1 : ExtensionDetector.DetectorState, st1.currentDefinitionFile = some df →
        ExtensionDetector.applyPreset st1 pn
          = Except.ok { st1 with enabledExtensions := Js.setOf preset.enabledExtensions })) := by
  constructor
  · intro h
    simp [ExtensionDetector.loadExtensionDefinitions, h]
  · intro preset h
    constructor
    · have hload : ExtensionDetector.loadExtensionDefinitions st df (some pn)
          = Except.ok { st with
              currentDefinitionFile := some df
              extensionRules := df.extensions
              categories := df.categories
              enabledExtensions := Js.setOf preset.enabledExtensions } := by
        simp [ExtensionDetector.loadExtensionDefinitions, ExtensionDetector.applyPreset, h]
      exact ⟨_, hload, rfl, fun x => Js.mem_setOf preset.enabledExtensions x, rfl⟩
    · intro st1 h1
      simp [ExtensionDetector.applyPreset, h1, h]

/-- Witness data: an extension definition document with one preset. -/
def w7preset : ExtensionDetector.ExtensionPreset :=
  { name := ("strict").toList, description := []
  , enabledExtensions := [("dll").toList, ("exe").toList, ("dll").toList] }

/-- Witness data: an extension definition document holding `w7preset`. -/
def w7file : ExtensionDetector.ExtensionDefinitionFile :=
  { version := ("1.0").toList, name := ("ext").toList, description := []
  , extensions := [], categories := [], presets := [(("strict").toList, w7preset)] }

/-- Witness data: an empty detector state. -/
def w7state : ExtensionDetector.DetectorState :=
  { extensionRules := [], categories := [], currentDefinitionFile := none
  , enabledExtensions := [("bat").toList] }

/-- Witness for C7: the unknown-preset branch at a concrete document, and
the replacement branch at its known preset. -/
theorem extension_preset_application_witness :
    (ExtensionDetector.loadExtensionDefinitions w7state w7file (some (("nope").toList))
        = Except.error (ExtensionDetector.LoadError.presetNotFound (("nope").toList))) ∧
    (∃ st', ExtensionDetector.loadExtensionDefinitions w7state w7file (some (("strict").toList))
        = Except.ok st' ∧
      st'.enabledExtensions = Js.setOf w7preset.enabledExtensions ∧
      (∀ x, x ∈ st'.enabledExtensions ↔ x ∈ w7preset.enabledExtensions) ∧
      st'.extensionRules = w7file.extensions) :=
  ⟨(extension_preset_application w7state w7file (("nope").toList)).1 (by decide),
   (((extension_preset_application w7state w7file (("strict").toList)).2
      w7preset (by decide)).1)⟩

/-! Claim C1: lemmas about splitting, joining and normalizing paths. -/

namespace NodePath

/-- Unfolding equation of `normalizeSegs` on the empty segment list. -/
theorem normalizeSegs_nil (isAbs : Bool) (acc : List Str) :
    normalizeSegs isAbs acc [] = acc.reverse := rfl

/-- Unfolding equation of `normalizeSegs` on a cons cell. -/
theorem normalizeSegs_cons (isAbs : Bool) (acc : List Str) (seg : Str) (rest : List Str) :
    normalizeSegs isAbs acc (seg :: rest) =
      if seg = [] ∨ seg = ['.'] then normalizeSegs isAbs acc rest
      else if seg = dotdot then
        match acc with
        | [] => normalizeSegs isAbs (if isAbs then [] else [seg]) rest
        | top :: accRest =>
          if top = dotdot then normalizeSegs isAbs (seg :: acc) rest
          else normalizeSegs isAbs accRest rest
      else normalizeSegs isAbs (seg :: acc) rest := rfl

/-- Segments produced by splitting on '/' contain no '/'. -/
theorem mem_splitSlashAux_no_slash :
    ∀ (s acc : Str), '/' ∉ acc → ∀ seg ∈ splitSlashAux s acc, '/' ∉ seg := by
  intro s
  induction s with
  | nil =>
    intro acc hacc seg hseg
    simp only [splitSlashAux, List.mem_singleton] at hseg
    subst hseg
    simpa using hacc
  | cons c rest ih =>
    intro acc hacc seg hseg
    by_cases hc : c = '/'
    · rw [splitSlashAux, if_pos hc] at hseg
      rcases List.mem_cons.mp hseg with h | h
      · subst h; simpa using hacc
      · exact ih [] (by simp) seg h
    · rw [splitSlashAux, if_neg hc] at hseg
      refine ih (c :: acc) ?_ seg hseg
      intro hmem
      rcases List.mem_cons.mp hmem with h | h
      · exact hc h.symm
      · exact hacc h

/-- Segments of a split path contain no '/'. -/
theorem splitSlash_no_slash (p : Str) : ∀ seg ∈ splitSlash p, '/' ∉ seg :=
  mem_splitSlashAux_no_slash p [] (by simp)

/-- Every segment of the normalization stack comes from the accumulator or
is a non-empty, non-dot input segment. -/
theorem mem_normalizeSegs :
    ∀ (segs acc : List Str) (isAbs : Bool) (x : Str),
      x ∈ normalizeSegs isAbs acc segs →
      x ∈ acc ∨ (x ∈ segs ∧ x ≠ [] ∧ x ≠ ['.']) := by
  intro segs
  induction segs with
  | nil =>
    intro acc isAbs x hx
    rw [normalizeSegs_nil] at hx
    exact Or.inl (List.mem_reverse.mp hx)
  | cons seg rest ih =>
    intro acc isAbs x hx
    rw [normalizeSegs_cons] at hx
    by_cases h1 : seg = [] ∨ seg = ['.']
    · rw [if_pos h1] at hx
      rcases ih acc isAbs x hx with h | ⟨h, hne⟩
      · exact Or.inl h
      · exact Or.inr ⟨List.mem_cons_of_mem seg h, hne⟩
    · rw [if_neg h1] at hx
      push_neg at h1
      by_cases h2 : seg = dotdot
      · rw [if_pos h2] at hx
        cases acc with
        | nil =>
          cases isAbs with
          | false =>
            simp only [Bool.false_eq_true, if_false] at hx
            rcases ih [seg] false x hx with h | ⟨h, hne⟩
            · rcases List.mem_singleton.mp h with rfl
              exact Or.inr ⟨List.mem_cons_self _ _, h1.1, h1.2⟩
            · exact Or.inr ⟨List.mem_cons_of_mem seg h, hne⟩
          | true =>
            simp only [if_true] at hx
            rcases ih [] true x hx with h | ⟨h, hne⟩
            · simp at h
            · exact Or.inr ⟨List.mem_cons_of_mem seg h, hne⟩
        | cons top accRest =>
          dsimp only at hx
          by_cases h3 : top = dotdot
          · rw [if_pos h3] at hx
            rcases ih (seg :: top :: accRest) isAbs x hx with h | ⟨h, hne⟩
            · rcases List.mem_cons.mp h with rfl | h
              · exact Or.inr ⟨List.mem_cons_self _ _, h1.1, h1.2⟩
              · exact Or.inl h
            · exact Or.inr ⟨List.mem_cons_of_mem seg h, hne⟩
          · rw [if_neg h3] at hx
            rcases ih accRest isAbs x hx with h | ⟨h, hne⟩
            · exact Or.inl (List.mem_cons_of_mem top h)
            · exact Or.inr ⟨List.mem_cons_of_mem seg h, hne⟩
      · rw [if_neg h2] at hx
        rcases ih (seg :: acc) isAbs x hx with h | ⟨h, hne⟩
        · rcases List.mem_cons.mp h with rfl | h
          · exact Or.inr ⟨List.mem_cons_self _ _, h1.1, h1.2⟩
          · exact Or.inl h
        · exact Or.inr ⟨List.mem_cons_of_mem seg h, hne⟩

/-- Shape of the normalization stack: all `..` segments sit at the front,
and an absolute path has none at all. -/
theorem normalizeSegs_shape :
    ∀ (segs : List Str) (isAbs : Bool) (k : Nat) (front : List Str),
      dotdot ∉ front → (isAbs = true → k = 0) →
      ∃ (k' : Nat) (rest : List Str),
        normalizeSegs isAbs (front ++ List.replicate k dotdot) segs
            = List.replicate k' dotdot ++ rest ∧
        dotdot ∉ rest ∧ (isAbs = true → k' = 0) := by
  intro segs
  induction segs with
  | nil =>
    intro isAbs k front hf hk
    refine ⟨k, front.reverse, ?_, by simpa using hf, hk⟩
    rw [normalizeSegs_nil]
    simp [List.reverse_append, List.reverse_replicate]
  | cons seg rest ih =>
    intro isAbs k front hf hk
    rw [normalizeSegs_cons]
    by_cases h1 : seg = [] ∨ seg = ['.']
    · rw [if_pos h1]; exact ih isAbs k front hf hk
    · rw [if_neg h1]
      by_cases h2 : seg = dotdot
      · rw [if_pos h2]
        cases hfront : front with
        | nil =>
          subst hfront
          cases k with
          | zero =>
            simp only [List.replicate_zero, List.nil_append]
            cases isAbs with
            | true =>
              simp only [if_true]
              have := ih true 0 [] (by simp) (fun _ => rfl)
              simpa using this
            | false =>
              simp only [Bool.false_eq_true, if_false]
              have := ih false 1 [] (by simp) (by simp)
              subst h2
              simpa [List.replicate] using this
          | succ k0 =>
            have hAbsF : isAbs = false := by
              cases isAbs with
              | false => rfl
              | true => exact absurd (hk rfl) (by simp)
            subst hAbsF
            simp only [List.nil_append, List.replicate_succ, if_pos rfl]
            have := ih false (k0 + 2) [] (by simp) (by simp)
            subst h2
            simpa [List.replicate] using this
        | cons f fr =>
          subst hfront
          have hfne : f ≠ dotdot := fun h => hf (h ▸ List.mem_cons_self f fr)
          simp only [List.cons_append, if_neg hfne]
          exact ih isAbs k fr (fun h => hf (List.mem_cons_of_mem f h)) hk
      · rw [if_neg h2]
        have : seg :: (front ++ List.replicate k dotdot)
            = (seg :: front) ++ List.replicate k dotdot := rfl
        rw [this]
        refine ih isAbs k (seg :: front) ?_ hk
        intro hmem
        rcases List.mem_cons.mp hmem with h | h
        · exact h2 h.symm
        · exact hf h

/-- Shape of the normalization stack, starting from the empty stack. -/
theorem normalizeSegs_shape_nil (segs : List Str) (isAbs : Bool) :
    ∃ (k : Nat) (rest : List Str),
      normalizeSegs isAbs [] segs = List.replicate k dotdot ++ rest ∧
      dotdot ∉ rest ∧ (isAbs = true → k = 0) := by
  have := normalizeSegs_shape segs isAbs 0 [] (by simp) (fun _ => rfl)
  simpa using this

/-- Splitting a slash-free string yields that single segment. -/
theorem splitSlashAux_no_slash_eq :
    ∀ (s acc : Str), '/' ∉ s → splitSlashAux s acc = [acc.reverse ++ s] := by
  intro s
  induction s with
  | nil => intro acc _; simp [splitSlashAux]
  | cons c t ih =>
    intro acc h
    have hc : c ≠ '/' := fun hh => h (hh ▸ List.mem_cons_self c t)
    have ht : '/' ∉ t := fun hh => h (List.mem_cons_of_mem c hh)
    rw [splitSlashAux, if_neg (fun hh => hc hh)]
    rw [ih (c :: acc) ht]
    simp

/-- Splitting distributes over the first '/' of a slash-free prefix. -/
theorem splitSlashAux_append_slash :
    ∀ (s t acc : Str), '/' ∉ s →
      splitSlashAux (s ++ '/' :: t) acc = (acc.reverse ++ s) :: splitSlashAux t [] := by
  intro s
  induction s with
  | nil =>
    intro t acc _
    rw [List.nil_append, splitSlashAux, if_pos rfl]
    simp
  | cons c s' ih =>
    intro t acc h
    have hc : c ≠ '/' := fun hh => h (hh ▸ List.mem_cons_self c s')
    have hs' : '/' ∉ s' := fun hh => h (List.mem_cons_of_mem c hh)
    rw [List.cons_append, splitSlashAux, if_neg (fun hh => hc hh), ih t (c :: acc) hs']
    simp

/-- splitSlash of a slash-free string. -/
theorem splitSlash_no_slash_eq (s : Str) (h : '/' ∉ s) : splitSlash s = [s] := by
  simpa using splitSlashAux_no_slash_eq s [] h

/-- splitSlash after prepending a slash-free segment and a separator. -/
theorem splitSlash_append_slash (s t : Str) (h : '/' ∉ s) :
    splitSlash (s ++ '/' :: t) = s :: splitSlash t := by
  simpa [splitSlash] using splitSlashAux_append_slash s t [] h

/-- Unfolding equation of `joinSegs` on a two-or-more element list. -/
theorem joinSegs_cons₂ (x y : Str) (r : List Str) :
    joinSegs (x :: y :: r) = x ++ '/' :: joinSegs (y :: r) := rfl

/-- splitSlash inverts joinSegs on non-empty lists of slash-free segments. -/
theorem splitSlash_joinSegs :
    ∀ (L : List Str), L ≠ [] → (∀ x ∈ L, '/' ∉ x) →
      splitSlash (joinSegs L) = L := by
  intro L
  induction L with
  | nil => intro h _; exact absurd rfl h
  | cons x L' ih =>
    intro _ hns
    cases L' with
    | nil =>
      rw [joinSegs]
      exact splitSlash_no_slash_eq x (hns x (List.mem_cons_self x []))
    | cons y r =>
      rw [joinSegs_cons₂, splitSlash_append_slash x _ (hns x (List.mem_cons_self x _))]
      rw [ih (by simp) (fun z hz => hns z (List.mem_cons_of_mem x hz))]

/-- splitSlash of a joined list with a trailing separator. -/
theorem splitSlash_joinSegs_slash :
    ∀ (L : List Str), L ≠ [] → (∀ x ∈ L, '/' ∉ x) →
      splitSlash (joinSegs L ++ ['/']) = L ++ [[]] := by
  intro L
  induction L with
  | nil => intro h _; exact absurd rfl h
  | cons x L' ih =>
    intro _ hns
    cases L' with
    | nil =>
      rw [joinSegs]
      have : x ++ ['/'] = x ++ '/' :: ([] : Str) := rfl
      rw [this, splitSlash_append_slash x [] (hns x (List.mem_cons_self x []))]
      rfl
    | cons y r =>
      rw [joinSegs_cons₂]
      have : (x ++ '/' :: joinSegs (y :: r)) ++ ['/']
          = x ++ '/' :: (joinSegs (y :: r) ++ ['/']) := by simp
      rw [this, splitSlash_append_slash x _ (hns x (List.mem_cons_self x _))]
      rw [ih (by simp) (fun z hz => hns z (List.mem_cons_of_mem x hz))]
      rfl

/-- A joined list headed by a non-empty segment is non-empty. -/
theorem joinSegs_ne_nil (x : Str) (L : List Str) (hx : x ≠ []) :
    joinSegs (x :: L) ≠ [] := by
  cases L with
  | nil => simpa [joinSegs] using hx
  | cons y r => simp [joinSegs]

/-- A join headed by `..` and a second segment starts with `../`. -/
theorem startsWith_joinSegs_dotdot (s : Str) (L : List Str) :
    Js.startsWith (joinSegs (dotdot :: s :: L)) ['.', '.', '/'] = true := by
  rw [joinSegs_cons₂]
  simp [Js.startsWith, dotdot, List.isPrefixOf]

/-- Prefixes survive appending on the right. -/
theorem startsWith_append_right (s t pre : Str) (h : Js.startsWith s pre = true) :
    Js.startsWith (s ++ t) pre = true := by
  simp only [Js.startsWith, List.isPrefixOf_iff_prefix] at h ⊢
  have h2 := List.prefix_append s t
  exact h.trans h2

/-- splitSlash after a leading separator. -/
theorem splitSlash_cons_slash (t : Str) :
    splitSlash ('/' :: t) = [] :: splitSlash t := by
  simp [splitSlash, splitSlashAux]

end NodePath

/-- hasTraversalSeg as membership of the `..` segment. -/
theorem hasTraversalSeg_iff (s : Str) :
    PackageParser.hasTraversalSeg s = true ↔ NodePath.dotdot ∈ NodePath.splitSlash s := by
  simp only [PackageParser.hasTraversalSeg, List.any_eq_true, decide_eq_true_eq]
  constructor
  · rintro ⟨x, hx, rfl⟩; exact hx
  · intro h; exact ⟨_, h, rfl⟩

/-- Central C1 lemma: when the normalized path still contains a `..`
segment, either that normalized path is exactly `..`, or it starts with
`../` (and is hence rejected by the extraction filter). -/
theorem normalize_traversal (p : Str)
    (htrav : PackageParser.hasTraversalSeg (NodePath.normalize p) = true) :
    NodePath.normalize p = NodePath.dotdot ∨
      Js.startsWith (NodePath.normalize p) ['.', '.', '/'] = true := by
  by_cases hp : p = []
  · subst hp; revert htrav; decide
  have hns : ∀ seg ∈ NodePath.splitSlash p, '/' ∉ seg := NodePath.splitSlash_no_slash p
  rw [hasTraversalSeg_iff] at htrav
  by_cases hA : p.head? = some '/'
  · -- absolute path: the stack holds no `..`, contradiction with htrav
    exfalso
    obtain ⟨k, rest, hstack, hrest, hk⟩ :=
      NodePath.normalizeSegs_shape_nil (NodePath.splitSlash p) true
    have hk0 : k = 0 := hk rfl
    subst hk0
    rw [List.replicate_zero, List.nil_append] at hstack
    have hmem : ∀ x ∈ rest, '/' ∉ x ∧ x ≠ [] := by
      intro x hx
      rw [← hstack] at hx
      rcases NodePath.mem_normalizeSegs _ [] true x hx with h | ⟨h, hne, _⟩
      · simp at h
      · exact ⟨hns x h, hne⟩
    by_cases hT : p.getLast? = some '/' <;>
        simp only [NodePath.normalize, hp, if_neg hp, hA, hT, decide_True, decide_False,
          if_true, if_false, not_true_eq_false, and_false, false_and, and_true, true_and,
          ite_false, ite_true, ne_eq] at htrav <;>
      rw [hstack] at htrav
    · -- trailing slash
      cases rest with
      | nil => revert htrav; decide
      | cons s0 rest' =>
        have hbody : NodePath.joinSegs (s0 :: rest') ≠ [] :=
          NodePath.joinSegs_ne_nil s0 rest' (hmem s0 (List.mem_cons_self s0 rest')).2
        rw [if_pos hbody] at htrav
        rw [NodePath.splitSlash_cons_slash,
          NodePath.splitSlash_joinSegs_slash _ (by simp) (fun x hx => (hmem x hx).1)] at htrav
        rcases List.mem_cons.mp htrav with h | h
        · exact absurd h.symm (by decide)
        · rcases List.mem_append.mp h with h | h
          · exact hrest h
          · simp [NodePath.dotdot] at h
    · -- no trailing slash
      cases rest with
      | nil => revert htrav; decide
      | cons s0 rest' =>
        rw [NodePath.splitSlash_cons_slash,
          NodePath.splitSlash_joinSegs _ (by simp) (fun x hx => (hmem x hx).1)] at htrav
        rcases List.mem_cons.mp htrav with h | h
        · exact absurd h.symm (by decide)
        · exact hrest h
  · -- relative path
    obtain ⟨k, rest, hstack, hrest, _⟩ :=
      NodePath.normalizeSegs_shape_nil (NodePath.splitSlash p) false
    have hmem : ∀ x ∈ List.replicate k NodePath.dotdot ++ rest, '/' ∉ x ∧ x ≠ [] := by
      intro x hx
      rw [← hstack] at hx
      rcases NodePath.mem_normalizeSegs _ [] false x hx with h | ⟨h, hne, _⟩
      · simp at h
      · exact ⟨hns x h, hne⟩
    by_cases hT : p.getLast? = some '/' <;>
        simp only [NodePath.normalize, hp, if_neg hp, hA, hT, decide_True, decide_False,
          if_true, if_false, not_true_eq_false, not_false_eq_true, and_false, false_and,
          and_true, true_and, ite_false, ite_true, ne_eq] at htrav ⊢ <;>
      rw [hstack] at htrav ⊢ <;>
      cases k with
      | zero =>
        exfalso
        simp only [List.replicate_zero, List.nil_append] at htrav hmem
        rw [List.replicate_zero, List.nil_append] at hstack
        cases rest with
        | nil => revert htrav; decide
        | cons s0 rest' =>
          have hbody : NodePath.joinSegs (s0 :: rest') ≠ [] :=
            NodePath.joinSegs_ne_nil s0 rest' (hmem s0 (List.mem_cons_self s0 rest')).2
          rw [if_neg hbody] at htrav
          first
            | (rw [if_pos hbody] at htrav
               rw [NodePath.splitSlash_joinSegs_slash _ (by simp)
                 (fun x hx => (hmem x hx).1)] at htrav
               rcases List.mem_append.mp htrav with h | h
               · exact hrest h
               · simp [NodePath.dotdot] at h)
            | (rw [NodePath.splitSlash_joinSegs _ (by simp)
                 (fun x hx => (hmem x hx).1)] at htrav
               exact hrest htrav)
      | succ k0 =>
        simp only [List.replicate_succ, List.cons_append] at htrav hmem ⊢
        have hddne : (NodePath.dotdot : Str) ≠ [] := by decide
        cases hS2 : List.replicate k0 NodePath.dotdot ++ rest with
        | nil => decide
        | cons s L =>
          have hbody : NodePath.joinSegs (NodePath.dotdot :: s :: L) ≠ [] :=
            NodePath.joinSegs_ne_nil _ _ hddne
          have hSW := NodePath.startsWith_joinSegs_dotdot s L
          rw [if_neg hbody]
          first
            | (rw [if_pos hbody]
               exact Or.inr (NodePath.startsWith_append_right _ _ _ hSW))
            | exact Or.inr hSW

/-- The filter rejects any entry whose normalized path starts with `../`. -/
theorem tarEntryFilter_eq_false_of_startsWith (p : Str)
    (h : Js.startsWith (NodePath.normalize p) ['.', '.', '/'] = true) :
    PackageParser.tarEntryFilter p = false := by
  simp [PackageParser.tarEntryFilter, h]

/-- Splitting with a non-empty accumulator only extends the head segment. -/
theorem splitSlashAux_head :
    ∀ (t acc : Str), ∃ h rest, NodePath.splitSlashAux t [] = h :: rest ∧
      NodePath.splitSlashAux t acc = (acc.reverse ++ h) :: rest := by
  intro t
  induction t with
  | nil =>
    intro acc
    exact ⟨[], [], rfl, by simp [NodePath.splitSlashAux]⟩
  | cons c t ih =>
    intro acc
    by_cases hc : c = '/'
    · refine ⟨[], NodePath.splitSlashAux t [], ?_, ?_⟩
      · rw [NodePath.splitSlashAux, if_pos hc]
        rfl
      · rw [NodePath.splitSlashAux, if_pos hc]
        simp
    · obtain ⟨h, rest, h1, h2⟩ := ih [c]
      obtain ⟨h3, rest3, h4, h5⟩ := ih (c :: acc)
      rw [h1] at h4
      injection h4 with e1 e2
      subst e1
      subst e2
      refine ⟨c :: h, rest, ?_, ?_⟩
      · rw [NodePath.splitSlashAux, if_neg hc, h2]
        simp
      · rw [NodePath.splitSlashAux, if_neg hc, h5]
        simp

/-- A string starting with `../` has `..` as its first segment. -/
theorem startsWith_dotdot_mem (s : Str)
    (h : Js.startsWith s ['.', '.', '/'] = true) :
    NodePath.dotdot ∈ NodePath.splitSlash s := by
  simp only [Js.startsWith, List.isPrefixOf_iff_prefix] at h
  obtain ⟨t, rfl⟩ := h
  rw [show ((['.', '.', '/'] : Str) ++ t) = NodePath.dotdot ++ '/' :: t from rfl,
    NodePath.splitSlash_append_slash _ _ (by decide)]
  exact List.mem_cons_self _ _

/-- A string containing `/../` has `..` as a non-leading segment. -/
theorem includes_slash_dotdot_mem :
    ∀ s : Str, Js.includes s ['/', '.', '.', '/'] = true →
      NodePath.dotdot ∈ (NodePath.splitSlash s).tail := by
  intro s
  induction s with
  | nil =>
    intro h
    rw [Js.includes] at h
    simp [List.isPrefixOf] at h
  | cons c t ih =>
    intro h
    rw [Js.includes] at h
    by_cases hpre : (['/', '.', '.', '/'] : Str).isPrefixOf (c :: t) = true
    · obtain ⟨u, hu⟩ := List.isPrefixOf_iff_prefix.mp hpre
      injection hu with hc ht
      subst hc
      subst ht
      rw [NodePath.splitSlash_cons_slash, List.tail_cons]
      show NodePath.dotdot ∈ NodePath.splitSlash (NodePath.dotdot ++ '/' :: u)
      rw [NodePath.splitSlash_append_slash _ _ (by decide)]
      exact List.mem_cons_self _ _
    · rw [if_neg hpre] at h
      have hdd := ih h
      by_cases hc : c = '/'
      · subst hc
        rw [NodePath.splitSlash_cons_slash, List.tail_cons]
        exact List.mem_of_mem_tail hdd
      · obtain ⟨hh, rest, h1, h2⟩ := splitSlashAux_head t [c]
        have e1 : NodePath.splitSlash (c :: t) = (c :: hh) :: rest := by
          rw [NodePath.splitSlash, NodePath.splitSlashAux, if_neg hc, h2]
          simp
        rw [e1, List.tail_cons]
        rw [show NodePath.splitSlash t = NodePath.splitSlashAux t [] from rfl, h1,
          List.tail_cons] at hdd
        exact hdd

/-- Normalization cannot introduce a `..` segment: a path without one
splits, after normalization, into segments without one. -/
theorem no_dd_splitSlash_normalize (p : Str)
    (hno : NodePath.dotdot ∉ NodePath.splitSlash p) :
    NodePath.dotdot ∉ NodePath.splitSlash (NodePath.normalize p) := by
  by_cases hp : p = []
  · subst hp; decide
  have hns := NodePath.splitSlash_no_slash p
  by_cases hA : p.head? = some '/'
  · by_cases hT : p.getLast? = some '/' <;>
        simp only [NodePath.normalize, hp, if_neg hp, hA, hT, decide_True, decide_False,
          if_true, if_false, not_true_eq_false, and_false, false_and, and_true, true_and,
          ite_false, ite_true, ne_eq]
    · cases hS : NodePath.normalizeSegs true [] (NodePath.splitSlash p) with
      | nil => decide
      | cons s0 rest =>
        have hmem : ∀ x ∈ s0 :: rest, '/' ∉ x ∧ x ≠ [] := by
          intro x hx
          rw [← hS] at hx
          rcases NodePath.mem_normalizeSegs _ [] true x hx with hx2 | ⟨hx2, hne, _⟩
          · simp at hx2
          · exact ⟨hns x hx2, hne⟩
        have hnodd : NodePath.dotdot ∉ s0 :: rest := by
          intro hx
          rw [← hS] at hx
          rcases NodePath.mem_normalizeSegs _ [] true NodePath.dotdot hx with hx2 | ⟨hx2, _, _⟩
          · simp at hx2
          · exact hno hx2
        have hbody : NodePath.joinSegs (s0 :: rest) ≠ [] :=
          NodePath.joinSegs_ne_nil s0 rest (hmem s0 (List.mem_cons_self s0 rest)).2
        rw [if_pos hbody, NodePath.splitSlash_cons_slash,
          NodePath.splitSlash_joinSegs_slash _ (by simp) (fun x hx => (hmem x hx).1)]
        intro hx
        rcases List.mem_cons.mp hx with hx | hx
        · exact absurd hx (by decide)
        · rcases List.mem_append.mp hx with hx | hx
          · exact hnodd hx
          · simp [NodePath.dotdot] at hx
    · cases hS : NodePath.normalizeSegs true [] (NodePath.splitSlash p) with
      | nil => decide
      | cons s0 rest =>
        have hmem : ∀ x ∈ s0 :: rest, '/' ∉ x ∧ x ≠ [] := by
          intro x hx
          rw [← hS] at hx
          rcases NodePath.mem_normalizeSegs _ [] true x hx with hx2 | ⟨hx2, hne, _⟩
          · simp at hx2
          · exact ⟨hns x hx2, hne⟩
        have hnodd : NodePath.dotdot ∉ s0 :: rest := by
          intro hx
          rw [← hS] at hx
          rcases NodePath.mem_normalizeSegs _ [] true NodePath.dotdot hx with hx2 | ⟨hx2, _, _⟩
          · simp at hx2
          · exact hno hx2
        rw [NodePath.splitSlash_cons_slash,
          NodePath.splitSlash_joinSegs _ (by simp) (fun x hx => (hmem x hx).1)]
        intro hx
        rcases List.mem_cons.mp hx with hx | hx
        · exact absurd hx (by decide)
        · exact hnodd hx
  · by_cases hT : p.getLast? = some '/' <;>
        simp only [NodePath.normalize, hp, if_neg hp, hA, hT, decide_True, decide_False,
          if_true, if_false, not_true_eq_false, not_false_eq_true, and_false, false_and,
          and_true, true_and, ite_false, ite_true, ne_eq]
    · cases hS : NodePath.normalizeSegs false [] (NodePath.splitSlash p) with
      | nil => decide
      | cons s0 rest =>
        have hmem : ∀ x ∈ s0 :: rest, '/' ∉ x ∧ x ≠ [] := by
          intro x hx
          rw [← hS] at hx
          rcases NodePath.mem_normalizeSegs _ [] false x hx with hx2 | ⟨hx2, hne, _⟩
          · simp at hx2
          · exact ⟨hns x hx2, hne⟩
        have hnodd : NodePath.dotdot ∉ s0 :: rest := by
          intro hx
          rw [← hS] at hx
          rcases NodePath.mem_normalizeSegs _ [] false NodePath.dotdot hx with hx2 | ⟨hx2, _, _⟩
          · simp at hx2
          · exact hno hx2
        have hbody : NodePath.joinSegs (s0 :: rest) ≠ [] :=
          NodePath.joinSegs_ne_nil s0 rest (hmem s0 (List.mem_cons_self s0 rest)).2
        rw [if_neg hbody, if_pos hbody,
          NodePath.splitSlash_joinSegs_slash _ (by simp) (fun x hx => (hmem x hx).1)]
        intro hx
        rcases List.mem_append.mp hx with hx | hx
        · exact hnodd hx
        · simp [NodePath.dotdot] at hx
    · cases hS : NodePath.normalizeSegs false [] (NodePath.splitSlash p) with
      | nil => decide
      | cons s0 rest =>
        have hmem : ∀ x ∈ s0 :: rest, '/' ∉ x ∧ x ≠ [] := by
          intro x hx
          rw [← hS] at hx
          rcases NodePath.mem_normalizeSegs _ [] false x hx with hx2 | ⟨hx2, hne, _⟩
          · simp at hx2
          · exact ⟨hns x hx2, hne⟩
        have hnodd : NodePath.dotdot ∉ s0 :: rest := by
          intro hx
          rw [← hS] at hx
          rcases NodePath.mem_normalizeSegs _ [] false NodePath.dotdot hx with hx2 | ⟨hx2, _, _⟩
          · simp at hx2
          · exact hno hx2
        have hbody : NodePath.joinSegs (s0 :: rest) ≠ [] :=
          NodePath.joinSegs_ne_nil s0 rest (hmem s0 (List.mem_cons_self s0 rest)).2
        rw [if_neg hbody,
          NodePath.splitSlash_joinSegs _ (by simp) (fun x hx => (hmem x hx).1)]
        exact hnodd

/-- Every `..` segment of a normalized path comes from a `..` segment of
the original path. -/
theorem mem_splitSlash_normalize (p : Str)
    (h : NodePath.dotdot ∈ NodePath.splitSlash (NodePath.normalize p)) :
    NodePath.dotdot ∈ NodePath.splitSlash p := by
  by_cases hdd : NodePath.dotdot ∈ NodePath.splitSlash p
  · exact hdd
  · exact absurd h (no_dd_splitSlash_normalize p hdd)

/-- The filter accepts every entry whose path has no `..` segment. -/
theorem tarEntryFilter_eq_true_of_no_dd (p : Str)
    (hno : NodePath.dotdot ∉ NodePath.splitSlash p) :
    PackageParser.tarEntryFilter p = true := by
  have hnn := no_dd_splitSlash_normalize p hno
  have ha : Js.startsWith (NodePath.normalize p) ['.', '.', '/'] = false := by
    by_cases hc : Js.startsWith (NodePath.normalize p) ['.', '.', '/'] = true
    · exact absurd (startsWith_dotdot_mem _ hc) hnn
    · simpa using hc
  have hb : Js.includes (NodePath.normalize p) ['/', '.', '.', '/'] = false := by
    by_cases hc : Js.includes (NodePath.normalize p) ['/', '.', '.', '/'] = true
    · exact absurd (List.mem_of_mem_tail (includes_slash_dotdot_mem _ hc)) hnn
    · simpa using hc
  simp [PackageParser.tarEntryFilter, ha, hb]

/-- Claim C1 (amended): extraction output is exactly the entries whose
path contains no `..` segment — node-tar's default path check skips any
entry whose raw path has a `..` component (subsuming the scanner's
normalize-based filter), so in particular every entry whose normalized
path contains a parent-directory traversal segment is excluded, and
extraction succeeds for the remainder. -/
theorem tar_traversal_exclusion (entryPath : Str) (entries : List Str) :
    (entryPath ∈ PackageParser.extractTarGz entries ↔
      entryPath ∈ entries ∧ NodePath.dotdot ∉ NodePath.splitSlash entryPath) ∧
    (PackageParser.hasTraversalSeg (NodePath.normalize entryPath) = true →
      entryPath ∉ PackageParser.extractTarGz entries) := by
  have hiff : entryPath ∈ PackageParser.extractTarGz entries ↔
      entryPath ∈ entries ∧ NodePath.dotdot ∉ NodePath.splitSlash entryPath := by
    rw [PackageParser.extractTarGz, List.mem_filter]
    constructor
    · rintro ⟨hm, hp2⟩
      rw [Bool.and_eq_true] at hp2
      refine ⟨hm, ?_⟩
      have h1 := hp2.1
      simp only [PackageParser.tarCheckPath, Bool.not_eq_true',
        decide_eq_false_iff_not] at h1
      exact h1
    · rintro ⟨hm, hno⟩
      refine ⟨hm, ?_⟩
      rw [Bool.and_eq_true]
      exact ⟨by simp [PackageParser.tarCheckPath, hno],
        tarEntryFilter_eq_true_of_no_dd entryPath hno⟩
  refine ⟨hiff, ?_⟩
  intro htrav hmem
  exact (hiff.mp hmem).2
    (mem_splitSlash_normalize entryPath ((hasTraversalSeg_iff _).mp htrav))

/-- Counterexample to C1 as stated: the entry `a/../b` is non-escaping —
its normalized path `b` contains no traversal segment (it even passes the
scanner's own filter) — yet node-tar's default path check skips it, so
extraction does not produce exactly the set of non-escaping entries. -/
theorem tar_extraction_exact_set_counterexample :
    PackageParser.hasTraversalSeg (NodePath.normalize ("a/../b").toList) = false ∧
    PackageParser.tarEntryFilter ("a/../b").toList = true ∧
    ("a/../b").toList ∈ [("a/../b").toList] ∧
    PackageParser.extractTarGz [("a/../b").toList] = [] := by
  decide

/-- Witness for C1 (amended) at the concrete entry `../x`. -/
theorem tar_traversal_exclusion_witness :
    (("../x").toList ∈ PackageParser.extractTarGz [("../x").toList] ↔
      ("../x").toList ∈ [("../x").toList] ∧
        NodePath.dotdot ∉ NodePath.splitSlash ("../x").toList) ∧
    ("../x").toList ∉ PackageParser.extractTarGz [("../x").toList] :=
  ⟨(tar_traversal_exclusion ("../x").toList [("../x").toList]).1,
   (tar_traversal_exclusion ("../x").toList [("../x").toList]).2 (by decide)⟩

/-! Claim C4. -/

namespace PatternMatcher

/-- Extension findings are emitted with line number 0. -/
theorem scanOneFile_lineNumber (st : ExtensionDetector.DetectorState) (c : Nat)
    (file : ExtractedFile) (ef : ExtensionDetector.ExtensionFinding)
    (h : ExtensionDetector.scanOneFile st c file = some ef) : ef.lineNumber = 0 := by
  unfold ExtensionDetector.scanOneFile at h
  split at h
  · exact absurd h (by simp)
  · split at h
    · exact absurd h (by simp)
    · split at h
      · exact absurd h (by simp)
      · dsimp only at h
        injection h with h2
        rw [← h2]

/-- All findings of the extension scan loop have line number 0. -/
theorem scanFilesGo_lineNumber (st : ExtensionDetector.DetectorState) :
    ∀ (files : List ExtractedFile) (c : Nat) (ef : ExtensionDetector.ExtensionFinding),
      ef ∈ ExtensionDetector.scanFilesGo st c files → ef.lineNumber = 0 := by
  intro files
  induction files with
  | nil => intro c ef h; simp [ExtensionDetector.scanFilesGo] at h
  | cons file rest ih =>
    intro c ef h
    rw [ExtensionDetector.scanFilesGo] at h
    rcases hf : ExtensionDetector.scanOneFile st c file with _ | finding <;> rw [hf] at h
    · exact ih c ef h
    · rcases List.mem_cons.mp h with rfl | h
      · exact scanOneFile_lineNumber st c file ef hf
      · exact ih (c + 1) ef h

/-- Merged extension findings keep their line number. -/
theorem mergeExtensionFindings_lineNumber :
    ∀ (efs : List ExtensionDetector.ExtensionFinding) (c : Nat) (f : ScanFinding),
      f ∈ (mergeExtensionFindings c efs).1 →
      ∃ ef ∈ efs, f.lineNumber = ef.lineNumber := by
  intro efs
  induction efs with
  | nil => intro c f h; simp [mergeExtensionFindings] at h
  | cons ef rest ih =>
    intro c f h
    rw [mergeExtensionFindings] at h
    rcases List.mem_cons.mp h with rfl | h
    · exact ⟨ef, List.mem_cons_self ef rest, rfl⟩
    · obtain ⟨ef', hmem, heq⟩ := ih (c + 1) f h
      exact ⟨ef', List.mem_cons_of_mem ef hmem, heq⟩

/-- Findings of the per-line pattern loop carry the line's data. -/
theorem scanLinePatterns_mem (file : ExtractedFile) (ln : Nat) (line : Str) :
    ∀ (ps : List PatternLoader.CompiledPattern) (c : Nat) (f : ScanFinding),
      f ∈ (scanLinePatterns file ln line ps c).1 →
      f.lineNumber = ln ∧ f.filePath = file.path ∧ f.context = Js.trim line := by
  intro ps
  induction ps with
  | nil => intro c f h; simp [scanLinePatterns] at h
  | cons pattern rest ih =>
    intro c f h
    rw [scanLinePatterns] at h
    simp only [List.mem_append, List.mem_map, List.mem_range] at h
    rcases h with ⟨k, _, rfl⟩ | h
    · exact ⟨rfl, rfl, rfl⟩
    · exact ih (c + pattern.regex line) f h

/-- Findings of the per-file line loop come from non-comment lines. -/
theorem scanLines_mem (patterns : List PatternLoader.CompiledPattern) (file : ExtractedFile) :
    ∀ (lines : List Str) (li c : Nat) (f : ScanFinding),
      f ∈ (scanLines patterns file lines li c).1 →
      ∃ j line, lines.get? j = some line ∧ isCommentLine line = false ∧
        f.lineNumber = li + j + 1 ∧ f.filePath = file.path ∧ f.context = Js.trim line := by
  intro lines
  induction lines with
  | nil => intro li c f h; simp [scanLines] at h
  | cons line rest ih =>
    intro li c f h
    rw [scanLines] at h
    by_cases hc : isCommentLine line
    · rw [if_pos hc] at h
      obtain ⟨j, line', hget, hcom, hln, hfp, hctx⟩ := ih (li + 1) c f h
      exact ⟨j + 1, line', by simpa using hget, hcom, by omega, hfp, hctx⟩
    · rw [if_neg hc] at h
      rcases List.mem_append.mp h with h | h
      · obtain ⟨hln, hfp, hctx⟩ := scanLinePatterns_mem file (li + 1) line patterns c f h
        exact ⟨0, line, rfl, by simpa using hc, by omega, hfp, hctx⟩
      · obtain ⟨j, line', hget, hcom, hln, hfp, hctx⟩ :=
          ih (li + 1) (scanLinePatterns file (li + 1) line patterns c).2 f h
        exact ⟨j + 1, line', by simpa using hget, hcom, by omega, hfp, hctx⟩

/-- Findings of the script-file loop come from non-comment lines of one of
the scanned files. -/
theorem scanScriptFiles_mem (patterns : List PatternLoader.CompiledPattern) :
    ∀ (files : List ExtractedFile) (c : Nat) (f : ScanFinding),
      f ∈ (scanScriptFiles patterns files c).1 →
      ∃ file ∈ files, ∃ line,
        (Js.splitOnChar '\n' (file.content.getD [])).get? (f.lineNumber - 1) = some line ∧
        isCommentLine line = false ∧ 0 < f.lineNumber ∧
        f.filePath = file.path ∧ f.context = Js.trim line := by
  intro files
  induction files with
  | nil => intro c f h; simp [scanScriptFiles] at h
  | cons file rest ih =>
    intro c f h
    rw [scanScriptFiles] at h
    by_cases ht : Js.truthy file.content
    · rw [if_neg (by simp [ht])] at h
      rcases List.mem_append.mp h with h | h
      · obtain ⟨j, line, hget, hcom, hln, hfp, hctx⟩ :=
          scanLines_mem patterns file (Js.splitOnChar '\n' (file.content.getD [])) 0 c f h
        refine ⟨file, List.mem_cons_self file rest, line, ?_, hcom, by omega, hfp, hctx⟩
        rw [hln]
        simpa using hget
      · obtain ⟨file', hmem, rest'⟩ := ih _ f h
        exact ⟨file', List.mem_cons_of_mem file hmem, rest'⟩
    · rw [if_pos (by simp [ht])] at h
      obtain ⟨file', hmem, rest'⟩ := ih c f h
      exact ⟨file', List.mem_cons_of_mem file hmem, rest'⟩

end PatternMatcher

/-- Claim C4: in a full scan, every line-based finding stems from a
non-comment line (its trimmed form does not start a `//`, a `/*`, or a `*`
comment) of one of the scanned files — a comment line never contributes a
content finding, whatever the compiled patterns match. -/
theorem comment_lines_never_contribute (patterns : List PatternLoader.CompiledPattern)
    (extSt : ExtensionDetector.DetectorState) (files : List ExtractedFile)
    (f : ScanFinding) (hf : f ∈ PatternMatcher.scanFiles patterns extSt files)
    (hln : 0 < f.lineNumber) :
    ∃ file ∈ files, ∃ line,
      (Js.splitOnChar '\n' (file.content.getD [])).get? (f.lineNumber - 1) = some line ∧
      PatternMatcher.isCommentLine line = false ∧
      f.filePath = file.path ∧ f.context = Js.trim line := by
  unfold PatternMatcher.scanFiles at hf
  rcases List.mem_append.mp hf with h | h
  · obtain ⟨ef, hef, heq⟩ := PatternMatcher.mergeExtensionFindings_lineNumber _ _ f h
    have h0 : ef.lineNumber = 0 :=
      PatternMatcher.scanFilesGo_lineNumber extSt files 1 ef hef
    omega
  · obtain ⟨file, hmem, line, hget, hcom, _, hfp, hctx⟩ :=
      PatternMatcher.scanScriptFiles_mem patterns _ _ f h
    exact ⟨file, (List.mem_filter.mp hmem).1, line, hget, hcom, hfp, hctx⟩

/-- Witness data: a pattern whose regex matches every line. -/
def w4pattern : PatternLoader.CompiledPattern :=
  { name := ("AnyLine").toList, category := ("network").toList
  , severity := Severity.warning, regex := fun _ => 1
  , description := ("d").toList }

/-- Witness data: an empty extension detector state. -/
def w4state : ExtensionDetector.DetectorState :=
  { extensionRules := [], categories := [], currentDefinitionFile := none
  , enabledExtensions := [] }

/-- Witness data: a script whose first line is a comment that the pattern
would match, and whose second line is code. -/
def w4file : ExtractedFile :=
  { path := ("Assets/C.cs").toList, type := FileType.script, size := 10
  , content := some ("// UnityWebRequest\nUnityWebRequest.Get(u);").toList }

/-- Witness data: the single finding the scan produces (from line 2 only;
the comment line is skipped although the pattern matches every line). -/
def w4finding : ScanFinding :=
  { id := ("1").toList, severity := Severity.warning
  , category := ("network").toList, pattern := ("AnyLine").toList
  , filePath := ("Assets/C.cs").toList, lineNumber := 2
  , context := ("UnityWebRequest.Get(u);").toList
  , description := ("d").toList }

/-- Witness for C4 at the concrete scan above. -/
theorem comment_lines_never_contribute_witness :
    w4finding ∈ PatternMatcher.scanFiles [w4pattern] w4state [w4file] ∧
    0 < w4finding.lineNumber ∧
    ∃ file ∈ [w4file], ∃ line,
      (Js.splitOnChar '\n' (file.content.getD [])).get? (w4finding.lineNumber - 1)
          = some line ∧
      PatternMatcher.isCommentLine line = false ∧
      w4finding.filePath = file.path ∧ w4finding.context = Js.trim line :=
  ⟨by decide, by decide,
   comment_lines_never_contribute [w4pattern] w4state [w4file] w4finding
     (by decide) (by decide)⟩

/-! Claim C10: decimal printing is injective, finding ids are positions. -/

namespace Js

/-- The fuel of the decimal printer is irrelevant once sufficient. -/
theorem numberToStringAux_congr :
    ∀ (n f1 f2 : Nat) (acc : Str), n < f1 → n < f2 →
      numberToStringAux f1 n acc = numberToStringAux f2 n acc := by
  intro n
  induction n using Nat.strong_induction_on with
  | _ n ih =>
    intro f1 f2 acc h1 h2
    cases f1 with
    | zero => omega
    | succ g1 =>
      cases f2 with
      | zero => omega
      | succ g2 =>
        rw [numberToStringAux, numberToStringAux]
        by_cases h : n < 10
        · rw [if_pos h, if_pos h]
        · rw [if_neg h, if_neg h]
          have hd : n / 10 < n := Nat.div_lt_self (by omega) (by omega)
          exact ih (n / 10) hd g1 g2 _ (by omega) (by omega)

/-- The accumulator of the decimal printer is a suffix. -/
theorem numberToStringAux_append :
    ∀ (n fuel : Nat) (acc : Str), n < fuel →
      numberToStringAux fuel n acc = numberToStringAux fuel n [] ++ acc := by
  intro n
  induction n using Nat.strong_induction_on with
  | _ n ih =>
    intro fuel acc hf
    cases fuel with
    | zero => omega
    | succ g =>
      rw [numberToStringAux, numberToStringAux]
      by_cases h : n < 10
      · rw [if_pos h, if_pos h]; rfl
      · rw [if_neg h, if_neg h]
        have hd : n / 10 < n := Nat.div_lt_self (by omega) (by omega)
        rw [ih (n / 10) hd g (digitChar (n % 10) :: acc) (by omega),
          ih (n / 10) hd g [digitChar (n % 10)] (by omega)]
        simp

/-- Unfolding of decimal printing into leading digits plus last digit. -/
theorem numberToString_unfold (n : Nat) :
    numberToString n = if n < 10 then [digitChar n]
      else numberToString (n / 10) ++ [digitChar (n % 10)] := by
  rw [numberToString, numberToStringAux]
  by_cases h : n < 10
  · rw [if_pos h, if_pos h]
  · rw [if_neg h, if_neg h]
    have hd : n / 10 < n := Nat.div_lt_self (by omega) (by omega)
    rw [numberToStringAux_congr (n / 10) n (n / 10 + 1) _ (by omega) (by omega),
      numberToStringAux_append (n / 10) (n / 10 + 1) _ (by omega)]
    rfl

/-- Decimal printing never yields the empty string. -/
theorem numberToString_ne_nil (n : Nat) : numberToString n ≠ [] := by
  rw [numberToString_unfold]
  by_cases h : n < 10 <;> simp [h]

/-- Digit characters are distinct. -/
theorem digitChar_inj (a b : Nat) (ha : a < 10) (hb : b < 10)
    (h : digitChar a = digitChar b) : a = b := by
  interval_cases a <;> interval_cases b <;> revert h <;> decide

/-- Decimal printing of naturals is injective. -/
theorem numberToString_injective : ∀ (m n : Nat), numberToString m = numberToString n → m = n := by
  intro m
  induction m using Nat.strong_induction_on with
  | _ m ih =>
    intro n h
    rw [numberToString_unfold m, numberToString_unfold n] at h
    by_cases hm : m < 10 <;> by_cases hn : n < 10
    · rw [if_pos hm, if_pos hn] at h
      simp only [List.cons.injEq, and_true] at h
      exact digitChar_inj m n hm hn h
    · exfalso
      rw [if_pos hm, if_neg hn] at h
      have hlen := congrArg List.length h
      simp only [List.length_singleton, List.length_append] at hlen
      have h0 := numberToString_ne_nil (n / 10)
      have : (numberToString (n / 10)).length = 0 := by omega
      exact h0 (List.length_eq_zero.mp this)
    · exfalso
      rw [if_neg hm, if_pos hn] at h
      have hlen := congrArg List.length h
      simp only [List.length_singleton, List.length_append] at hlen
      have h0 := numberToString_ne_nil (m / 10)
      have : (numberToString (m / 10)).length = 0 := by omega
      exact h0 (List.length_eq_zero.mp this)
    · rw [if_neg hm, if_neg hn] at h
      obtain ⟨h1, h2⟩ := List.append_inj' h (by simp)
      have hdiv : m / 10 = n / 10 :=
        ih (m / 10) (Nat.div_lt_self (by omega) (by omega)) (n / 10) h1
      simp only [List.cons.injEq, and_true] at h2
      have hmod : m % 10 = n % 10 :=
        digitChar_inj _ _ (Nat.mod_lt _ (by omega)) (Nat.mod_lt _ (by omega)) h2
      omega

end Js

namespace PatternMatcher

/-- The ids of a finding list are the consecutive decimal counters from
`c`. -/
def idsFrom (c : Nat) (l : List ScanFinding) : Prop :=
  ∀ i f, l.get? i = some f → f.id = Js.numberToString (c + i)

theorem idsFrom_nil (c : Nat) : idsFrom c [] := by
  intro i f h; simp at h

theorem idsFrom_append {c : Nat} {l1 l2 : List ScanFinding}
    (h1 : idsFrom c l1) (h2 : idsFrom (c + l1.length) l2) : idsFrom c (l1 ++ l2) := by
  intro i f h
  by_cases hi : i < l1.length
  · rw [List.get?_append hi] at h
    exact h1 i f h
  · rw [List.get?_append_right (by omega)] at h
    rw [h2 (i - l1.length) f h]
    congr 1
    omega

theorem idsFrom_cons {c : Nat} {f : ScanFinding} {l : List ScanFinding}
    (hf : f.id = Js.numberToString c) (hl : idsFrom (c + 1) l) : idsFrom c (f :: l) := by
  intro i g h
  cases i with
  | zero =>
    simp only [List.get?_cons_zero, Option.some.injEq] at h
    rw [← h, hf]
    congr 1
  | succ j =>
    rw [hl j g (by simpa using h)]
    congr 1
    omega

/-- Counter/ids invariant of the per-line pattern loop. -/
theorem scanLinePatterns_ids (file : ExtractedFile) (ln : Nat) (line : Str) :
    ∀ (ps : List PatternLoader.CompiledPattern) (c : Nat),
      (scanLinePatterns file ln line ps c).2
          = c + (scanLinePatterns file ln line ps c).1.length ∧
      idsFrom c (scanLinePatterns file ln line ps c).1 := by
  intro ps
  induction ps with
  | nil => intro c; exact ⟨by simp [scanLinePatterns], idsFrom_nil c⟩
  | cons pattern rest ih =>
    intro c
    rw [scanLinePatterns]
    obtain ⟨ihc, ihids⟩ := ih (c + pattern.regex line)
    constructor
    · simp only [List.length_append, List.length_map, List.length_range]
      omega
    · apply idsFrom_append
      · intro i f h
        by_cases hi : i < pattern.regex line
        · rw [List.get?_map, List.get?_range hi] at h
          simp only [Option.map_some', Option.some.injEq] at h
          rw [← h]
          rfl
        · rw [List.get?_eq_none.mpr (by simp; omega)] at h
          exact absurd h (by simp)
      · simp only [List.length_map, List.length_range]
        exact ihids

/-- Counter/ids invariant of the per-file line loop. -/
theorem scanLines_ids (patterns : List PatternLoader.CompiledPattern) (file : ExtractedFile) :
    ∀ (lines : List Str) (li c : Nat),
      (scanLines patterns file lines li c).2
          = c + (scanLines patterns file lines li c).1.length ∧
      idsFrom c (scanLines patterns file lines li c).1 := by
  intro lines
  induction lines with
  | nil => intro li c; exact ⟨by simp [scanLines], idsFrom_nil c⟩
  | cons line rest ih =>
    intro li c
    rw [scanLines]
    by_cases hc : isCommentLine line
    · rw [if_pos hc]
      exact ih (li + 1) c
    · rw [if_neg hc]
      obtain ⟨h1c, h1ids⟩ := scanLinePatterns_ids file (li + 1) line patterns c
      obtain ⟨h2c, h2ids⟩ := ih (li + 1) (scanLinePatterns file (li + 1) line patterns c).2
      constructor
      · simp only [List.length_append]
        omega
      · apply idsFrom_append h1ids
        rw [← h1c]
        exact h2ids

/-- Counter/ids invariant of the script-file loop. -/
theorem scanScriptFiles_ids (patterns : List PatternLoader.CompiledPattern) :
    ∀ (files : List ExtractedFile) (c : Nat),
      (scanScriptFiles patterns files c).2
          = c + (scanScriptFiles patterns files c).1.length ∧
      idsFrom c (scanScriptFiles patterns files c).1 := by
  intro files
  induction files with
  | nil => intro c; exact ⟨by simp [scanScriptFiles], idsFrom_nil c⟩
  | cons file rest ih =>
    intro c
    rw [scanScriptFiles]
    by_cases ht : Js.truthy file.content
    · rw [if_neg (by simp [ht])]
      obtain ⟨h1c, h1ids⟩ :=
        scanLines_ids patterns file (Js.splitOnChar '\n' (file.content.getD [])) 0 c
      obtain ⟨h2c, h2ids⟩ :=
        ih (scanLines patterns file (Js.splitOnChar '\n' (file.content.getD [])) 0 c).2
      constructor
      · simp only [List.length_append]
        omega
      · apply idsFrom_append h1ids
        rw [← h1c]
        exact h2ids
    · rw [if_pos (by simp [ht])]
      exact ih c

/-- Counter/ids invariant of the extension-finding merge loop. -/
theorem mergeExtensionFindings_ids :
    ∀ (efs : List ExtensionDetector.ExtensionFinding) (c : Nat),
      (mergeExtensionFindings c efs).2
          = c + (mergeExtensionFindings c efs).1.length ∧
      idsFrom c (mergeExtensionFindings c efs).1 := by
  intro efs
  induction efs with
  | nil => intro c; exact ⟨by simp [mergeExtensionFindings], idsFrom_nil c⟩
  | cons ef rest ih =>
    intro c
    rw [mergeExtensionFindings]
    obtain ⟨ihc, ihids⟩ := ih (c + 1)
    constructor
    · simp only [List.length_cons]
      omega
    · exact idsFrom_cons rfl ihids

end PatternMatcher

/-- Claim C10: in the finding list of one scan, the finding at 0-based
position i carries id `toString (i + 1)` (extension findings first, then
content findings, one running counter), and hence ids are pairwise
distinct. -/
theorem finding_ids_are_positions (patterns : List PatternLoader.CompiledPattern)
    (extSt : ExtensionDetector.DetectorState) (files : List ExtractedFile) :
    (∀ i f, (PatternMatcher.scanFiles patterns extSt files).get? i = some f →
      f.id = Js.numberToString (i + 1)) ∧
    (∀ i j fi fj, (PatternMatcher.scanFiles patterns extSt files).get? i = some fi →
      (PatternMatcher.scanFiles patterns extSt files).get? j = some fj →
      i ≠ j → fi.id ≠ fj.id) := by
  have main : PatternMatcher.idsFrom 1 (PatternMatcher.scanFiles patterns extSt files) := by
    unfold PatternMatcher.scanFiles
    obtain ⟨h1c, h1ids⟩ := PatternMatcher.mergeExtensionFindings_ids
      (ExtensionDetector.scanFiles extSt files) 1
    obtain ⟨_, h2ids⟩ := PatternMatcher.scanScriptFiles_ids patterns
      (files.filter (fun file => (file.type == FileType.script) && Js.truthy file.content))
      (PatternMatcher.mergeExtensionFindings 1 (ExtensionDetector.scanFiles extSt files)).2
    apply PatternMatcher.idsFrom_append h1ids
    rw [← h1c]
    exact h2ids
  refine ⟨?_, ?_⟩
  · intro i f h
    rw [main i f h]
    congr 1
    omega
  · intro i j fi fj hi hj hne
    rw [main i fi hi, main j fj hj]
    intro heq
    have := Js.numberToString_injective (1 + i) (1 + j) heq
    exact absurd (by omega : i = j) hne

/-- Witness data: a two-line script with no comment lines. -/
def w10file : ExtractedFile :=
  { path := ("Assets/D.cs").toList, type := FileType.script, size := 5
  , content := some ("A();\nB();").toList }

/-- Witness data: the first finding of the witness scan. -/
def w10f0 : ScanFinding :=
  { id := ("1").toList, severity := Severity.warning
  , category := ("network").toList, pattern := ("AnyLine").toList
  , filePath := ("Assets/D.cs").toList, lineNumber := 1
  , context := ("A();").toList, description := ("d").toList }

/-- Witness data: the second finding of the witness scan. -/
def w10f1 : ScanFinding :=
  { id := ("2").toList, severity := Severity.warning
  , category := ("network").toList, pattern := ("AnyLine").toList
  , filePath := ("Assets/D.cs").toList, lineNumber := 2
  , context := ("B();").toList, description := ("d").toList }

/-- Witness for C10 at a concrete two-finding scan. -/
theorem finding_ids_are_positions_witness :
    (PatternMatcher.scanFiles [w4pattern] w4state [w10file]).get? 0 = some w10f0 ∧
    (PatternMatcher.scanFiles [w4pattern] w4state [w10file]).get? 1 = some w10f1 ∧
    w10f0.id = Js.numberToString (0 + 1) ∧
    w10f1.id = Js.numberToString (1 + 1) ∧
    w10f0.id ≠ w10f1.id :=
  ⟨by decide, by decide,
   (finding_ids_are_positions [w4pattern] w4state [w10file]).1 0 w10f0 (by decide),
   (finding_ids_are_positions [w4pattern] w4state [w10file]).1 1 w10f1 (by decide),
   (finding_ids_are_positions [w4pattern] w4state [w10file]).2 0 1 w10f0 w10f1
     (by decide) (by decide) (by decide)⟩

/-! Claim C8. -/

namespace ExtensionDetector

/-- A file with no extension produces no extension finding. -/
theorem scanOneFile_none_of_no_ext (st : DetectorState) (c : Nat) (f : ExtractedFile)
    (h : getFileExtension f.path = none) : scanOneFile st c f = none := by
  unfold scanOneFile
  rw [h]

/-- A file with a disabled extension produces no extension finding. -/
theorem scanOneFile_none_of_disabled (st : DetectorState) (c : Nat) (f : ExtractedFile)
    (ext : Str) (h : getFileExtension f.path = some ext)
    (hd : Js.setHas st.enabledExtensions ext = false) : scanOneFile st c f = none := by
  unfold scanOneFile
  rw [h]
  dsimp only
  rw [if_pos (by simp [hd])]

/-- Scanning a single file reduces to its scanOneFile result. -/
theorem scanFiles_singleton (st : DetectorState) (f : ExtractedFile) :
    scanFiles st [f]
      = match scanOneFile st 1 f with
        | none => []
        | some g => [g] := by
  rw [scanFiles, scanFilesGo]
  cases scanOneFile st 1 f <;> simp [scanFilesGo]

end ExtensionDetector

/-- Claim C8: extension lookup happens on the lower-cased extension, so two
files whose extensions agree after lower-casing (e.g. `Library.DLL` and
`library.dll`) and whose contents agree produce equivalent findings —
equal in every field except the file path embedded in filePath/context —
while files with no extension or a disabled extension produce none. -/
theorem extension_case_insensitive (st : ExtensionDetector.DetectorState)
    (f1 f2 : ExtractedFile)
    (hext : ExtensionDetector.getFileExtension f1.path
      = ExtensionDetector.getFileExtension f2.path)
    (hcontent : f1.content = f2.content) :
    ((ExtensionDetector.scanFiles st [f1]).length
        = (ExtensionDetector.scanFiles st [f2]).length) ∧
    (∀ g1, ExtensionDetector.scanFiles st [f1] = [g1] →
      ∃ g2, ExtensionDetector.scanFiles st [f2] = [g2] ∧
        g1.id = g2.id ∧ g1.severity = g2.severity ∧ g1.category = g2.category ∧
        g1.pattern = g2.pattern ∧ g1.lineNumber = g2.lineNumber ∧
        g1.description = g2.description ∧ g1.fileType = g2.fileType ∧
        g1.riskLevel = g2.riskLevel ∧ g1.platform = g2.platform) ∧
    (∀ f : ExtractedFile, ExtensionDetector.getFileExtension f.path = none →
      ExtensionDetector.scanFiles st [f] = []) ∧
    (∀ f ext, ExtensionDetector.getFileExtension f.path = some ext →
      Js.setHas st.enabledExtensions ext = false →
      ExtensionDetector.scanFiles st [f] = []) := by
  have hcorr : ∀ c : Nat,
      ((ExtensionDetector.scanOneFile st c f1).isSome
        = (ExtensionDetector.scanOneFile st c f2).isSome) ∧
      (∀ g1 g2, ExtensionDetector.scanOneFile st c f1 = some g1 →
        ExtensionDetector.scanOneFile st c f2 = some g2 →
        g1.id = g2.id ∧ g1.severity = g2.severity ∧ g1.category = g2.category ∧
        g1.pattern = g2.pattern ∧ g1.lineNumber = g2.lineNumber ∧
        g1.description = g2.description ∧ g1.fileType = g2.fileType ∧
        g1.riskLevel = g2.riskLevel ∧ g1.platform = g2.platform) := by
    intro c
    unfold ExtensionDetector.scanOneFile
    rw [← hext, ← hcontent]
    cases hx : ExtensionDetector.getFileExtension f1.path with
    | none => exact ⟨rfl, fun g1 g2 h1 _ => absurd h1 (by simp)⟩
    | some extension =>
      dsimp only
      by_cases he : Js.setHas st.enabledExtensions extension
      · simp only [he, Bool.not_true, Bool.false_eq_true, if_false]
        cases hr : Js.recordGet st.extensionRules extension with
        | none => exact ⟨rfl, fun g1 g2 h1 _ => absurd h1 (by simp)⟩
        | some rule =>
          dsimp only
          refine ⟨rfl, ?_⟩
          intro g1 g2 h1 h2
          injection h1 with h1
          injection h2 with h2
          rw [← h1, ← h2]
          exact ⟨rfl, rfl, rfl, rfl, rfl, rfl, rfl, rfl, rfl⟩
      · simp only [Bool.not_eq_true] at he
        simp only [he, Bool.not_false, if_true]
        exact ⟨by trivial, fun g1 g2 h1 _ => absurd h1 (by simp)⟩
  refine ⟨?_, ?_, ?_, ?_⟩
  · rw [ExtensionDetector.scanFiles_singleton st f1, ExtensionDetector.scanFiles_singleton st f2]
    have hs := (hcorr 1).1
    cases h1 : ExtensionDetector.scanOneFile st 1 f1 <;>
      cases h2 : ExtensionDetector.scanOneFile st 1 f2 <;>
      rw [h1, h2] at hs <;> simp_all
  · intro g1 hscan
    rw [ExtensionDetector.scanFiles_singleton st f1] at hscan
    cases h1 : ExtensionDetector.scanOneFile st 1 f1 with
    | none => rw [h1] at hscan; exact absurd hscan (by simp)
    | some g =>
      rw [h1] at hscan
      simp only [List.cons.injEq, and_true] at hscan
      subst hscan
      have hs := (hcorr 1).1
      rw [h1] at hs
      cases h2 : ExtensionDetector.scanOneFile st 1 f2 with
      | none => rw [h2] at hs; simp at hs
      | some g2 =>
        refine ⟨g2, ?_, (hcorr 1).2 g g2 h1 h2⟩
        rw [ExtensionDetector.scanFiles_singleton st f2, h2]
  · intro f hnone
    rw [ExtensionDetector.scanFiles_singleton st f,
      ExtensionDetector.scanOneFile_none_of_no_ext st 1 f hnone]
  · intro f ext hsome hdis
    rw [ExtensionDetector.scanFiles_singleton st f,
      ExtensionDetector.scanOneFile_none_of_disabled st 1 f ext hsome hdis]

/-- Witness data: the dll extension rule. -/
def w8rule : ExtensionDetector.ExtensionRule :=
  { severity := Severity.warning, category := ("dll").toList
  , description := ("desc").toList, riskLevel := RiskLevel.medium
  , checkContent := false, fileType := ("Dynamic Link Library").toList
  , platform := [("windows").toList], commonUses := [] }

/-- Witness data: a detector state with the dll extension enabled. -/
def w8state : ExtensionDetector.DetectorState :=
  { extensionRules := [(("dll").toList, w8rule)]
  , categories := [], currentDefinitionFile := none
  , enabledExtensions := [("dll").toList] }

/-- Witness data: the same library under two extension spellings. -/
def w8f1 : ExtractedFile :=
  { path := ("Assets/Library.DLL").toList, type := FileType.dll, size := 9 }

/-- Witness data: lower-case twin of `w8f1`. -/
def w8f2 : ExtractedFile :=
  { path := ("Assets/library.dll").toList, type := FileType.dll, size := 9 }

/-- Witness data: the finding produced for `w8f1`. -/
def w8g1 : ExtensionDetector.ExtensionFinding :=
  { id := ("1").toList, severity := Severity.warning
  , category := ("dll").toList, pattern := ("DLL File").toList
  , filePath := ("Assets/Library.DLL").toList, lineNumber := 0
  , context := ("Dynamic Link Library: Assets/Library.DLL").toList
  , description := ("desc").toList
  , fileType := ("Dynamic Link Library").toList, riskLevel := RiskLevel.medium
  , platform := [("windows").toList], extensionCategory := ("dll").toList }

/-- Witness for C8: `Library.DLL` and `library.dll` resolve to the same
enabled extension and produce equivalent findings. -/
theorem extension_case_insensitive_witness :
    ExtensionDetector.getFileExtension w8f1.path
        = ExtensionDetector.getFileExtension w8f2.path ∧
    ExtensionDetector.scanFiles w8state [w8f1] = [w8g1] ∧
    (∃ g2, ExtensionDetector.scanFiles w8state [w8f2] = [g2] ∧
      w8g1.id = g2.id ∧ w8g1.severity = g2.severity ∧ w8g1.category = g2.category ∧
      w8g1.pattern = g2.pattern ∧ w8g1.lineNumber = g2.lineNumber ∧
      w8g1.description = g2.description ∧ w8g1.fileType = g2.fileType ∧
      w8g1.riskLevel = g2.riskLevel ∧ w8g1.platform = g2.platform) :=
  ⟨by decide, by decide,
   (extension_case_insensitive w8state w8f1 w8f2 (by decide) (by decide)).2.1
     w8g1 (by decide)⟩

/-! Claim C6. -/

namespace Js

/-- Unfolding of record lookup over a cons cell. -/
theorem recordGet_cons {α : Type} (k : Str) (v : α) (rest : List (Str × α)) (n : Str) :
    recordGet ((k, v) :: rest) n = if k = n then some v else recordGet rest n := by
  by_cases h : k = n
  · rw [if_pos h, recordGet, List.find?_cons_of_pos _ (by simp [h])]
    simp
  · rw [if_neg h, recordGet, List.find?_cons_of_neg _ (by simp [h])]
    rfl

/-- Over unique keys, record lookup coincides with membership. -/
theorem recordGet_eq_some_iff {α : Type} :
    ∀ (m : List (Str × α)) (n : Str) (c : α), (m.map Prod.fst).Nodup →
      (recordGet m n = some c ↔ (n, c) ∈ m) := by
  intro m
  induction m with
  | nil => intro n c _; simp [recordGet]
  | cons kv rest ih =>
    intro n c h
    obtain ⟨k, v⟩ := kv
    simp only [List.map_cons, List.nodup_cons] at h
    rw [recordGet_cons]
    by_cases hk : k = n
    · subst hk
      rw [if_pos rfl]
      simp only [Option.some.injEq]
      constructor
      · rintro rfl; exact List.mem_cons_self _ _
      · intro hmem
        rcases List.mem_cons.mp hmem with heq | hmem
        · injection heq with _ h2; exact h2.symm
        · exact absurd (List.mem_map_of_mem Prod.fst hmem) h.1
    · rw [if_neg hk]
      rw [ih n c h.2]
      constructor
      · exact fun hmem => List.mem_cons_of_mem _ hmem
      · intro hmem
        rcases List.mem_cons.mp hmem with heq | hmem
        · exact absurd (congrArg Prod.fst heq).symm hk
        · exact hmem

/-- Membership after a JS object assignment, assuming the overwritten key
(if present) maps to the same value. -/
theorem mem_objInsert {α : Type} (m : List (Str × α)) (k : Str) (v : α)
    (hover : ∀ v', (k, v') ∈ m → v' = v) (n : Str) (c : α) :
    ((n, c) ∈ objInsert m k v ↔ ((n, c) ∈ m ∨ (n = k ∧ c = v))) := by
  unfold objInsert
  by_cases hany : m.any (fun p => p.1 == k)
  · rw [if_pos hany]
    simp only [List.mem_map]
    constructor
    · rintro ⟨p, hp, hpe⟩
      by_cases hpk : p.1 = k
      · rw [if_pos (by simp [hpk])] at hpe
        right
        exact ⟨(congrArg Prod.fst hpe).symm, (congrArg Prod.snd hpe).symm⟩
      · rw [if_neg (by simp [hpk])] at hpe
        exact Or.inl (hpe ▸ hp)
    · rintro (hmem | ⟨rfl, rfl⟩)
      · by_cases hnk : n = k
        · subst hnk
          refine ⟨(n, c), hmem, ?_⟩
          rw [if_pos (by simp)]
          rw [hover c hmem]
        · exact ⟨(n, c), hmem, by rw [if_neg (by simp [hnk])]⟩
      · obtain ⟨p, hp, hpk⟩ := List.any_eq_true.mp hany
        refine ⟨p, hp, ?_⟩
        rw [if_pos hpk]
  · rw [if_neg hany]
    simp only [List.mem_append, List.mem_singleton]
    constructor
    · rintro (h | h)
      · exact Or.inl h
      · exact Or.inr ⟨(congrArg Prod.fst h), (congrArg Prod.snd h)⟩
    · rintro (h | ⟨rfl, rfl⟩)
      · exact Or.inl h
      · exact Or.inr rfl

end Js

namespace PatternLoader

/-- Membership in the category table built by preset application: exactly
the categories of the document named by the preset. -/
theorem mem_filteredCategories (cats : List (Str × CategoryDefinition)) :
    ∀ (names : List Str) (acc : List (Str × CategoryDefinition)),
      (∀ n c, (n, c) ∈ acc → Js.recordGet cats n = some c) →
      ∀ (n : Str) (c : CategoryDefinition),
        ((n, c) ∈ names.foldl (presetStep cats) acc ↔
          ((n, c) ∈ acc ∨ (n ∈ names ∧ Js.recordGet cats n = some c))) := by
  intro names
  induction names with
  | nil => intro acc _ n c; simp
  | cons m rest ih =>
    intro acc hacc n c
    rw [List.foldl_cons,
      show presetStep cats acc m = (match Js.recordGet cats m with
        | some cdef => Js.objInsert acc m cdef
        | none => acc) from rfl]
    cases hm : Js.recordGet cats m with
    | none =>
      dsimp only
      rw [ih acc hacc n c]
      constructor
      · rintro (h | ⟨hmem, hget⟩)
        · exact Or.inl h
        · exact Or.inr ⟨List.mem_cons_of_mem m hmem, hget⟩
      · rintro (h | ⟨hmem, hget⟩)
        · exact Or.inl h
        · rcases List.mem_cons.mp hmem with rfl | hmem2
          · rw [hget] at hm; exact absurd hm (by simp)
          · exact Or.inr ⟨hmem2, hget⟩
    | some cm =>
      dsimp only
      have hover : ∀ v', (m, v') ∈ acc → v' = cm := by
        intro v' hv
        have h3 := hacc m v' hv
        rw [hm] at h3
        injection h3 with h3
        exact h3.symm
      have hacc2 : ∀ n2 c2, (n2, c2) ∈ Js.objInsert acc m cm →
          Js.recordGet cats n2 = some c2 := by
        intro n2 c2 h2
        rcases (Js.mem_objInsert acc m cm hover n2 c2).mp h2 with h | ⟨rfl, rfl⟩
        · exact hacc n2 c2 h
        · exact hm
      rw [ih (Js.objInsert acc m cm) hacc2 n c, Js.mem_objInsert acc m cm hover n c]
      constructor
      · rintro ((h | ⟨rfl, rfl⟩) | ⟨hmem, hget⟩)
        · exact Or.inl h
        · exact Or.inr ⟨List.mem_cons_self _ _, hm⟩
        · exact Or.inr ⟨List.mem_cons_of_mem _ hmem, hget⟩
      · rintro (h | ⟨hmem, hget⟩)
        · exact Or.inl (Or.inl h)
        · rcases List.mem_cons.mp hmem with rfl | hmem2
          · rw [hget] at hm
            injection hm with hm
            exact Or.inl (Or.inr ⟨rfl, hm⟩)
          · exact Or.inr ⟨hmem2, hget⟩

/-- Every rule compiled from a category carries that category's name. -/
theorem compileCategory_category (rc : Str → Str → (Str → Nat))
    (compileOk : Str → Str → Bool) (categoryName : Str)
    (category : CategoryDefinition) (r : CompiledPattern)
    (h : r ∈ compileCategory rc compileOk categoryName category) :
    r.category = categoryName := by
  unfold compileCategory at h
  by_cases hfe : Js.truthy category.fileExtension
  · rw [if_pos hfe] at h
    rw [List.mem_singleton.mp h]
  · rw [if_neg hfe] at h
    cases hp : category.patterns with
    | none => rw [hp] at h; simp at h
    | some pats =>
      rw [hp] at h
      obtain ⟨pattern, _, hsome⟩ := List.mem_filterMap.mp h
      dsimp only at hsome
      by_cases hok : compileOk pattern.regex (parseRegexFlags pattern.flags)
      · rw [if_pos hok] at hsome
        injection hsome with hsome
        rw [← hsome]
      · rw [if_neg hok] at hsome
        exact absurd hsome (by simp)

/-- Membership in a compiled pattern file. -/
theorem mem_compilePatterns (rc : Str → Str → (Str → Nat))
    (compileOk : Str → Str → Bool) (patternFile : PatternFile) (r : CompiledPattern) :
    r ∈ compilePatterns rc compileOk patternFile ↔
      ∃ nc ∈ patternFile.categories, r ∈ compileCategory rc compileOk nc.1 nc.2 := by
  unfold compilePatterns
  exact List.mem_flatMap

end PatternLoader

/-- Claim C6: applying a content-rule preset enables exactly the compiled
rules whose category the preset names (unknown category names are ignored)
minus the rules named in the preset's exclude list, and re-applying the
same preset is idempotent on the loader state. -/
theorem content_preset_application (rc : Str → Str → (Str → Nat))
    (compileOk : Str → Str → Bool) (file : PatternLoader.PatternFile)
    (preset : PatternLoader.PresetDefinition)
    (hN : (file.categories.map Prod.fst).Nodup) :
    (∀ r, r ∈ PatternLoader.applyPreset rc compileOk file preset ↔
      (r ∈ PatternLoader.compilePatterns rc compileOk file ∧
       r.category ∈ preset.enabledCategories ∧
       (preset.excludePatterns.getD []).contains r.name = false)) ∧
    (∀ st : PatternLoader.LoaderState,
      PatternLoader.applyPresetState rc compileOk
          (PatternLoader.applyPresetState rc compileOk st preset).2 preset
        = PatternLoader.applyPresetState rc compileOk st preset) := by
  constructor
  · intro r
    have hfiltered := PatternLoader.mem_filteredCategories file.categories
      preset.enabledCategories [] (by simp)
    have hmain : r ∈ PatternLoader.compilePatterns rc compileOk
        { file with categories := (List.foldl (PatternLoader.presetStep file.categories) [] preset.enabledCategories) } ↔
        (r ∈ PatternLoader.compilePatterns rc compileOk file ∧
          r.category ∈ preset.enabledCategories) := by
      rw [PatternLoader.mem_compilePatterns]
      constructor
      · rintro ⟨⟨n, c⟩, hmem, hr⟩
        rcases (hfiltered n c).mp hmem with h | ⟨hen, hget⟩
        · simp at h
        · have hcat := PatternLoader.compileCategory_category rc compileOk n c r hr
          constructor
          · rw [PatternLoader.mem_compilePatterns]
            exact ⟨(n, c), (Js.recordGet_eq_some_iff file.categories n c hN).mp hget, hr⟩
          · rw [hcat]; exact hen
      · rintro ⟨hcf, hen⟩
        rw [PatternLoader.mem_compilePatterns] at hcf
        obtain ⟨⟨n, c⟩, hmem, hr⟩ := hcf
        have hcat := PatternLoader.compileCategory_category rc compileOk n c r hr
        refine ⟨(n, c), ?_, hr⟩
        apply (hfiltered n c).mpr
        refine Or.inr ⟨?_, (Js.recordGet_eq_some_iff file.categories n c hN).mpr hmem⟩
        rw [← hcat]; exact hen
    unfold PatternLoader.applyPreset
    cases hex : preset.excludePatterns with
    | none =>
      dsimp only
      rw [hmain]
      simp [hex]
    | some lst =>
      dsimp only
      rw [List.mem_filter, hmain]
      simp [hex, and_assoc, Bool.not_eq_true']
  · intro st
    cases hc : st.currentPatternFile with
    | none => simp [PatternLoader.applyPresetState, hc]
    | some f => simp [PatternLoader.applyPresetState, hc]

/-- Witness data: a constant regex engine for the preset witness. -/
def w6rc : Str → Str → (Str → Nat) := fun _ _ => fun _ => 0

/-- Witness data: a compiler in which every regex is valid. -/
def w6ok : Str → Str → Bool := fun _ _ => true

/-- Witness data: a category with two patterns. -/
def w6catA : PatternLoader.CategoryDefinition :=
  { severity := Severity.warning, description := []
  , patterns := some
      [ { name := ("P1").toList, description := [], regex := ("a").toList
        , flags := ("g").toList }
      , { name := ("P2").toList, description := [], regex := ("b").toList
        , flags := ("g").toList, severity := some Severity.critical } ] }

/-- Witness data: a second category. -/
def w6catB : PatternLoader.CategoryDefinition :=
  { severity := Severity.info, description := []
  , patterns := some
      [ { name := ("P3").toList, description := [], regex := ("c").toList
        , flags := ("g").toList } ] }

/-- Witness data: a two-category pattern document. -/
def w6file : PatternLoader.PatternFile :=
  { version := ("1").toList, name := ("pf").toList, description := []
  , categories := [(("netw").toList, w6catA), (("proc").toList, w6catB)] }

/-- Witness data: a preset enabling one known and one unknown category and
excluding one rule by name. -/
def w6preset : PatternLoader.PresetDefinition :=
  { name := ("std").toList, description := []
  , enabledCategories := [("netw").toList, ("bogus").toList]
  , excludePatterns := some [("P2").toList] }

/-- Witness data: the compiled form of rule P1. -/
def w6r : PatternLoader.CompiledPattern :=
  { name := ("P1").toList, category := ("netw").toList
  , severity := Severity.warning, regex := fun _ => 0, description := [] }

/-- Witness data: a loader state with the document loaded. -/
def w6state : PatternLoader.LoaderState :=
  { loadedPatterns := [], currentPatternFile := some w6file }

/-- Witness for C6 at a concrete document, preset and rule. -/
theorem content_preset_application_witness :
    (w6file.categories.map Prod.fst).Nodup ∧
    (w6r ∈ PatternLoader.applyPreset w6rc w6ok w6file w6preset ↔
      (w6r ∈ PatternLoader.compilePatterns w6rc w6ok w6file ∧
       w6r.category ∈ w6preset.enabledCategories ∧
       (w6preset.excludePatterns.getD []).contains w6r.name = false)) ∧
    (PatternLoader.applyPresetState w6rc w6ok
        (PatternLoader.applyPresetState w6rc w6ok w6state w6preset).2 w6preset
      = PatternLoader.applyPresetState w6rc w6ok w6state w6preset) :=
  ⟨by decide,
   (content_preset_application w6rc w6ok w6file w6preset (by decide)).1 w6r,
   (content_preset_application w6rc w6ok w6file w6preset (by decide)).2 w6state⟩
